import Mathlib

/-!
# Verification of the Higra core algorithms

Shallow embedding of the Higra core studied here:

* `graph_cut_2_labelisation` (from `include/higra/algo/cut.hpp`): labels the
  vertices of a graph according to a graph cut given as an edge-weight array
  (non-zero weight = edge in the cut).
* the tree-accumulator entry points (`python/higra/cpp/accumulator/py_tree_accumulators.cpp`)
  together with models of the underlying accumulation engine, and
* the LCA query structure exposed in `python/higra/cpp/py_lca_fast.cpp`.

Machine integers (`index_t`, label counters) are modelled with `Nat`;
the higra sentinel `invalid_index` is modelled as `none` in an
`Option Nat` valued label map.  Edge weights are integers (the algorithm
only compares them with `0`).  Fallible operations return `Except String`.
-/

/-! ## Graph model

A higra undirected graph: vertices are `0 .. numVertices - 1`; edges are an
indexed list of unordered vertex pairs, the edge index being the list
position.  `out_edge_index_iterator(v, g)` enumerates the indices of the
edges incident to `v` in increasing index order. -/

structure UGraph where
  numVertices : Nat
  edges : List (Nat × Nat)
deriving Repr

/-- `num_edges(graph)`. -/
def UGraph.numEdges (g : UGraph) : Nat := g.edges.length

/-- `edge(edge_index, graph)`: the endpoint pair of the edge with a given index. -/
def UGraph.edge (g : UGraph) (i : Nat) : Nat × Nat := g.edges.getD i (0, 0)

/-- `other_vertex(e, v, graph)`: the endpoint of `e` that is not `v`. -/
def otherVertex (e : Nat × Nat) (v : Nat) : Nat := if e.1 = v then e.2 else e.1

/-- `out_edge_index_iterator(v, graph)`: indices of the edges incident to `v`. -/
def UGraph.outEdgeIndices (g : UGraph) (v : Nat) : List Nat :=
  (List.range g.numEdges).filter (fun i => (g.edge i).1 = v ∨ (g.edge i).2 = v)

/-- A well-formed graph: every edge endpoint is a valid vertex index. -/
def UGraph.Valid (g : UGraph) : Prop :=
  ∀ e ∈ g.edges, e.1 < g.numVertices ∧ e.2 < g.numVertices

instance (g : UGraph) : Decidable g.Valid := by
  unfold UGraph.Valid; infer_instance

/-! ## Numeric arrays

The xtensor inputs carry a shape; the cut algorithm checks
`edge_weights.dimension() == 1` and `edge_weights.size()` before reading
the data. -/

structure NDArray where
  shape : List Nat
  data : List Int
deriving Repr

/-- `a.dimension()`: number of axes. -/
def NDArray.dimension (a : NDArray) : Nat := a.shape.length

/-- `a.size()`: number of scalar entries. -/
def NDArray.size (a : NDArray) : Nat := a.data.length

/-- A flat 1-d array of `n` scalars. -/
def NDArray.flat (xs : List Int) : NDArray := ⟨[xs.length], xs⟩

/-! ## Cut labelling (`graph_cut_2_labelisation`, cut.hpp lines 31-66)

The label array is modelled as a total map `Nat → Option Nat`
(`none` = `invalid_index`); the final result materialises it on
`0 .. numVertices - 1`.  The stack is a list with `push` = cons and
`top`/`pop` = head/tail.  The inner `while` loop runs on fuel;
`numVertices + 1` units suffice because every loop iteration pops one
vertex and every pushed vertex was freshly labelled. -/

/-- The body of `for(auto edge_index: out_edge_index_iterator(cv, graph))`:
a traversable (zero-weight) edge propagates `lab` to its unlabelled
other endpoint, which is pushed on the stack. -/
def scanStep (g : UGraph) (w : List Int) (lab : Nat) (cv : Nat)
    (st : (Nat → Option Nat) × List Nat) (i : Nat) : (Nat → Option Nat) × List Nat :=
  if w.getD i 0 = 0 then
    let n := otherVertex (g.edge i) cv
    if st.1 n = none then
      (fun x => if x = n then some lab else st.1 x, n :: st.2)
    else st
  else st

/-- The whole neighbour scan of the current vertex `cv`. -/
def scanNeighbors (g : UGraph) (w : List Int) (lab : Nat) (cv : Nat)
    (st : (Nat → Option Nat) × List Nat) : (Nat → Option Nat) × List Nat :=
  (g.outEdgeIndices cv).foldl (scanStep g w lab cv) st

/-- The inner `while(!stack.empty())` loop, on fuel. -/
def cutLoop (g : UGraph) (w : List Int) (lab : Nat) :
    Nat → (Nat → Option Nat) → List Nat → (Nat → Option Nat)
  | 0, labels, _ => labels
  | _ + 1, labels, [] => labels
  | fuel + 1, labels, cv :: rest =>
      let st := scanNeighbors g w lab cv (labels, rest)
      cutLoop g w lab fuel st.1 st.2

/-- One iteration of the outer `for(auto v: vertex_iterator(graph))` loop:
state is (label map, `current_label`). -/
def cutOuterStep (g : UGraph) (w : List Int)
    (st : (Nat → Option Nat) × Nat) (v : Nat) : (Nat → Option Nat) × Nat :=
  if st.1 v = none then
    let lab := st.2 + 1
    let labels1 := fun x => if x = v then some lab else st.1 x
    (cutLoop g w lab (g.numVertices + 1) labels1 [v], lab)
  else st

/-- The whole labelling computation: scan vertices in increasing index order,
flood-filling a fresh label from every vertex found unlabelled.  Returns the
label map together with the final value of `current_label`. -/
def cutRun (g : UGraph) (w : List Int) : (Nat → Option Nat) × Nat :=
  (List.range g.numVertices).foldl (cutOuterStep g w) (fun _ => none, 0)

/-- `graph_cut_2_labelisation(graph, edge_weights)` (cut.hpp): checks that the
edge-weight array is 1-dimensional and that its size matches `num_edges`,
then labels every connected component of the subgraph of zero-weight edges. -/
def graph_cut_2_labelisation (g : UGraph) (edge_weights : NDArray) :
    Except String (List (Option Nat)) :=
  if edge_weights.dimension ≠ 1 then
    .error "Edge weights must be scalar."
  else if g.numEdges ≠ edge_weights.size then
    .error "Edge weights size does not match graph number of edges."
  else
    .ok ((List.range g.numVertices).map (cutRun g edge_weights.data).1)

/-- Final value of the label counter (the number of labels used). -/
def cutNumLabels (g : UGraph) (edge_weights : NDArray) : Nat :=
  (cutRun g edge_weights.data).2

/-! ## Zero-weight connectivity

`ZeroStep g w a b`: some edge of `g` with weight `0` joins `a` and `b`.
`ZeroConn` is its reflexive-transitive closure: connectivity through edges
that are not part of the cut. -/

def ZeroStep (g : UGraph) (w : List Int) (a b : Nat) : Prop :=
  ∃ i < g.numEdges, w.getD i 0 = 0 ∧
    (((g.edge i).1 = a ∧ (g.edge i).2 = b) ∨ ((g.edge i).1 = b ∧ (g.edge i).2 = a))

def ZeroConn (g : UGraph) (w : List Int) : Nat → Nat → Prop :=
  Relation.ReflTransGen (ZeroStep g w)

/-- A path graph on `k` vertices: edge `i` joins `i` and `i+1`. -/
def pathGraph (k : Nat) : UGraph :=
  ⟨k, (List.range (k - 1)).map (fun i => (i, i + 1))⟩

/-! ## Invariants of the neighbour scan -/

theorem zeroStep_symm (g : UGraph) (w : List Int) {a b : Nat} :
    ZeroStep g w a b → ZeroStep g w b a := by
  rintro ⟨i, hi, hw, h | h⟩
  · exact ⟨i, hi, hw, Or.inr ⟨h.1, h.2⟩⟩
  · exact ⟨i, hi, hw, Or.inl ⟨h.1, h.2⟩⟩

theorem zeroConn_symm (g : UGraph) (w : List Int) {a b : Nat} :
    ZeroConn g w a b → ZeroConn g w b a := by
  intro h
  induction h with
  | refl => exact Relation.ReflTransGen.refl
  | tail _ hstep ih =>
      exact Relation.ReflTransGen.trans
        (Relation.ReflTransGen.single (zeroStep_symm g w hstep)) ih

theorem mem_outEdgeIndices (g : UGraph) (cv i : Nat) :
    i ∈ g.outEdgeIndices cv ↔
      i < g.numEdges ∧ ((g.edge i).1 = cv ∨ (g.edge i).2 = cv) := by
  unfold UGraph.outEdgeIndices
  simp [List.mem_filter, List.mem_range]

theorem outEdge_zeroStep (g : UGraph) (w : List Int) (cv i : Nat)
    (hi : i ∈ g.outEdgeIndices cv) (hw : w.getD i 0 = 0) :
    ZeroStep g w cv (otherVertex (g.edge i) cv) := by
  rw [mem_outEdgeIndices] at hi
  obtain ⟨hlt, hinc⟩ := hi
  unfold otherVertex
  by_cases h1 : (g.edge i).1 = cv
  · exact ⟨i, hlt, hw, Or.inl ⟨h1, by simp [h1]⟩⟩
  · have h2 : (g.edge i).2 = cv := hinc.resolve_left h1
    exact ⟨i, hlt, hw, Or.inr ⟨by simp [h1], h2⟩⟩

theorem zeroStep_to_outEdge (g : UGraph) (w : List Int) (u x : Nat)
    (h : ZeroStep g w u x) :
    ∃ i ∈ g.outEdgeIndices u, w.getD i 0 = 0 ∧ otherVertex (g.edge i) u = x := by
  obtain ⟨i, hi, hw, hc | hc⟩ := h
  · refine ⟨i, (mem_outEdgeIndices g u i).2 ⟨hi, Or.inl hc.1⟩, hw, ?_⟩
    unfold otherVertex
    rw [if_pos hc.1]
    exact hc.2
  · refine ⟨i, (mem_outEdgeIndices g u i).2 ⟨hi, Or.inr hc.2⟩, hw, ?_⟩
    unfold otherVertex
    by_cases h1 : (g.edge i).1 = u
    · rw [if_pos h1, hc.2, ← h1]
      exact hc.1
    · rw [if_neg h1]
      exact hc.1

/-- Equation: a traversable edge with unlabelled other endpoint labels and
pushes that endpoint. -/
theorem scanStep_push (g : UGraph) (w : List Int) (lab cv : Nat)
    (st : (Nat → Option Nat) × List Nat) (i : Nat) (hw : w.getD i 0 = 0)
    (hn : st.1 (otherVertex (g.edge i) cv) = none) :
    scanStep g w lab cv st i =
      (fun x => if x = otherVertex (g.edge i) cv then some lab else st.1 x,
        otherVertex (g.edge i) cv :: st.2) := by
  unfold scanStep
  rw [if_pos hw, if_pos hn]

/-- Equation: a traversable edge with already labelled other endpoint is a
no-op. -/
theorem scanStep_old (g : UGraph) (w : List Int) (lab cv : Nat)
    (st : (Nat → Option Nat) × List Nat) (i : Nat) (hw : w.getD i 0 = 0)
    (hn : ¬ st.1 (otherVertex (g.edge i) cv) = none) :
    scanStep g w lab cv st i = st := by
  unfold scanStep
  rw [if_pos hw, if_neg hn]

/-- Equation: an edge in the cut (non-zero weight) is a no-op. -/
theorem scanStep_cut (g : UGraph) (w : List Int) (lab cv : Nat)
    (st : (Nat → Option Nat) × List Nat) (i : Nat) (hw : ¬ w.getD i 0 = 0) :
    scanStep g w lab cv st i = st := by
  unfold scanStep
  rw [if_neg hw]

/-- Complete description of one neighbour scan (fold of `scanStep` over a
list of edge indices): a `Nodup` list `new` of previously unlabelled
vertices gets pushed and labelled `lab` (each reached through a traversable
scanned edge), labels of all other vertices are untouched, and afterwards
the other endpoint of every traversable scanned edge is labelled. -/
theorem scanStep_foldl_spec (g : UGraph) (w : List Int) (lab : Nat) (cv : Nat) :
    ∀ (is : List Nat) (st : (Nat → Option Nat) × List Nat),
      ∃ new : List Nat,
        (is.foldl (scanStep g w lab cv) st).2 = new ++ st.2 ∧
        new.Nodup ∧
        (∀ x ∈ new, st.1 x = none ∧
          ∃ i ∈ is, w.getD i 0 = 0 ∧ otherVertex (g.edge i) cv = x) ∧
        (∀ x, (is.foldl (scanStep g w lab cv) st).1 x =
          if x ∈ new then some lab else st.1 x) ∧
        (∀ i ∈ is, w.getD i 0 = 0 →
          ((is.foldl (scanStep g w lab cv) st).1
            (otherVertex (g.edge i) cv)).isSome) := by
  intro is
  induction is with
  | nil =>
      intro st
      exact ⟨[], rfl, List.nodup_nil, by simp, by simp, by simp⟩
  | cons i rest ih =>
      intro st
      rw [List.foldl_cons]
      by_cases hw : w.getD i 0 = 0
      · by_cases hn : st.1 (otherVertex (g.edge i) cv) = none
        · -- the other endpoint is unlabelled: it is labelled and pushed
          rw [scanStep_push g w lab cv st i hw hn]
          obtain ⟨new', h2, hnd, hmem, hlab, hsome⟩ :=
            ih (fun x => if x = otherVertex (g.edge i) cv then some lab else st.1 x,
              otherVertex (g.edge i) cv :: st.2)
          dsimp only at h2 hmem hlab hsome
          have hnnotnew : otherVertex (g.edge i) cv ∉ new' := by
            intro hmemn
            have := (hmem _ hmemn).1
            simp at this
          refine ⟨new' ++ [otherVertex (g.edge i) cv], ?_, ?_, ?_, ?_, ?_⟩
          · rw [h2]; simp
          · refine List.Nodup.append hnd (List.nodup_singleton _) ?_
            simpa [List.disjoint_singleton] using hnnotnew
          · intro x hx
            rcases List.mem_append.1 hx with hx' | hx'
            · have hx1 := (hmem x hx').1
              have hxn : x ≠ otherVertex (g.edge i) cv := by
                intro he
                rw [he] at hx1
                simp at hx1
              rw [if_neg hxn] at hx1
              obtain ⟨j, hj, hjw, hjo⟩ := (hmem x hx').2
              exact ⟨hx1, j, List.mem_cons_of_mem i hj, hjw, hjo⟩
            · have hx' : x = otherVertex (g.edge i) cv := by simpa using hx'
              subst hx'
              exact ⟨hn, i, List.mem_cons_self i rest, hw, rfl⟩
          · intro x
            rw [hlab x]
            by_cases hx1 : x ∈ new'
            · have hm : x ∈ new' ++ [otherVertex (g.edge i) cv] := by
                simp [hx1]
              rw [if_pos hx1, if_pos hm]
            · by_cases hx2 : x = otherVertex (g.edge i) cv
              · have hm : x ∈ new' ++ [otherVertex (g.edge i) cv] := by
                  simp [hx2]
                rw [if_neg hx1, if_pos hx2, if_pos hm]
              · have hm : x ∉ new' ++ [otherVertex (g.edge i) cv] := by
                  simp [hx1, hx2]
                rw [if_neg hx1, if_neg hx2, if_neg hm]
          · intro j hj hjw
            rcases List.mem_cons.1 hj with hj' | hj'
            · subst hj'
              rw [hlab (otherVertex (g.edge j) cv)]
              by_cases hx1 : otherVertex (g.edge j) cv ∈ new'
              · rw [if_pos hx1]; rfl
              · rw [if_neg hx1, if_pos rfl]; rfl
            · exact hsome j hj' hjw
        · -- the other endpoint is already labelled: no change
          rw [scanStep_old g w lab cv st i hw hn]
          obtain ⟨new', h2, hnd, hmem, hlab, hsome⟩ := ih st
          refine ⟨new', h2, hnd, ?_, hlab, ?_⟩
          · intro x hx
            obtain ⟨j, hj, hjw, hjo⟩ := (hmem x hx).2
            exact ⟨(hmem x hx).1, j, List.mem_cons_of_mem i hj, hjw, hjo⟩
          · intro j hj hjw
            rcases List.mem_cons.1 hj with hj' | hj'
            · subst hj'
              rw [hlab (otherVertex (g.edge j) cv)]
              by_cases hx1 : otherVertex (g.edge j) cv ∈ new'
              · rw [if_pos hx1]; rfl
              · rw [if_neg hx1]
                exact Option.isSome_iff_ne_none.2 hn
            · exact hsome j hj' hjw
      · -- non-traversable edge: no change
        rw [scanStep_cut g w lab cv st i hw]
        obtain ⟨new', h2, hnd, hmem, hlab, hsome⟩ := ih st
        refine ⟨new', h2, hnd, ?_, hlab, ?_⟩
        · intro x hx
          obtain ⟨j, hj, hjw, hjo⟩ := (hmem x hx).2
          exact ⟨(hmem x hx).1, j, List.mem_cons_of_mem i hj, hjw, hjo⟩
        · intro j hj hjw
          rcases List.mem_cons.1 hj with hj' | hj'
          · subst hj'; exact absurd hjw hw
          · exact hsome j hj' hjw

/-! ## Invariants of the inner while loop -/

/-- Number of unlabelled vertices (used as part of the loop variant). -/
def unlab (g : UGraph) (labels : Nat → Option Nat) : Nat :=
  ((Finset.range g.numVertices).filter (fun v => labels v = none)).card

theorem unlab_update (g : UGraph) (labels : Nat → Option Nat)
    (new : List Nat) (lab : Nat) (hnd : new.Nodup)
    (hnone : ∀ x ∈ new, labels x = none)
    (hrange : ∀ x ∈ new, x < g.numVertices) :
    unlab g (fun x => if x ∈ new then some lab else labels x) + new.length =
      unlab g labels := by
  unfold unlab
  have hset :
      (Finset.range g.numVertices).filter
          (fun v => (if v ∈ new then some lab else labels v) = none) =
        ((Finset.range g.numVertices).filter (fun v => labels v = none)) \
          new.toFinset := by
    ext v
    simp only [Finset.mem_filter, Finset.mem_sdiff, Finset.mem_range,
      List.mem_toFinset]
    constructor
    · rintro ⟨hv, hif⟩
      by_cases hvn : v ∈ new
      · rw [if_pos hvn] at hif
        exact absurd hif (by simp)
      · rw [if_neg hvn] at hif
        exact ⟨⟨hv, hif⟩, hvn⟩
    · rintro ⟨⟨hv, hln⟩, hvn⟩
      rw [if_neg hvn]
      exact ⟨hv, hln⟩
  rw [hset]
  have hsub : new.toFinset ⊆
      (Finset.range g.numVertices).filter (fun v => labels v = none) := by
    intro x hx
    rw [List.mem_toFinset] at hx
    exact Finset.mem_filter.2 ⟨Finset.mem_range.2 (hrange x hx), hnone x hx⟩
  rw [Finset.card_sdiff hsub, List.toFinset_card_of_nodup hnd]
  have hle := Finset.card_le_card hsub
  rw [List.toFinset_card_of_nodup hnd] at hle
  omega

theorem otherVertex_lt (g : UGraph) (hg : g.Valid) (i cv : Nat)
    (hi : i < g.numEdges) : otherVertex (g.edge i) cv < g.numVertices := by
  have hmem : g.edge i ∈ g.edges := by
    unfold UGraph.edge
    rw [List.getD_eq_getElem _ _ hi]
    exact List.getElem_mem hi
  obtain ⟨h1, h2⟩ := hg _ hmem
  unfold otherVertex
  by_cases h : (g.edge i).1 = cv
  · rw [if_pos h]; exact h2
  · rw [if_neg h]; exact h1

theorem cutLoop_zero (g : UGraph) (w : List Int) (lab : Nat)
    (labels : Nat → Option Nat) (stack : List Nat) :
    cutLoop g w lab 0 labels stack = labels := rfl

theorem cutLoop_nil (g : UGraph) (w : List Int) (lab fuel : Nat)
    (labels : Nat → Option Nat) :
    cutLoop g w lab (fuel + 1) labels [] = labels := rfl

theorem cutLoop_cons (g : UGraph) (w : List Int) (lab fuel : Nat)
    (labels : Nat → Option Nat) (cv : Nat) (rest : List Nat) :
    cutLoop g w lab (fuel + 1) labels (cv :: rest) =
      cutLoop g w lab fuel (scanNeighbors g w lab cv (labels, rest)).1
        (scanNeighbors g w lab cv (labels, rest)).2 := rfl

/-- Main invariant lemma for the inner DFS loop.  Starting from a state in
which every stacked vertex carries the current label and is connected to the
seed, every `lab`-labelled vertex is connected to the seed, and every
labelled vertex is either stacked or has all its traversable neighbours
labelled, and with enough fuel, the loop (1) preserves existing labels,
(2) only adds label `lab`, (3) labels with `lab` only vertices connected to
the seed, and (4) ends with every labelled vertex having all its
traversable neighbours labelled. -/
theorem cutLoop_spec (g : UGraph) (hg : g.Valid) (w : List Int)
    (lab seed : Nat) :
    ∀ (fuel : Nat) (labels : Nat → Option Nat) (stack : List Nat),
      (∀ s ∈ stack, labels s = some lab) →
      (∀ s ∈ stack, ZeroConn g w seed s) →
      (∀ x, labels x = some lab → ZeroConn g w seed x) →
      (∀ u, labels u ≠ none →
        u ∈ stack ∨ ∀ x, ZeroStep g w u x → labels x ≠ none) →
      stack.length + unlab g labels ≤ fuel →
      (∀ x l, labels x = some l → cutLoop g w lab fuel labels stack x = some l) ∧
      (∀ x l, cutLoop g w lab fuel labels stack x = some l →
        labels x = some l ∨ l = lab) ∧
      (∀ x, cutLoop g w lab fuel labels stack x = some lab →
        ZeroConn g w seed x) ∧
      (∀ u, cutLoop g w lab fuel labels stack u ≠ none →
        ∀ x, ZeroStep g w u x → cutLoop g w lab fuel labels stack x ≠ none) ∧
      (∀ x, cutLoop g w lab fuel labels stack x ≠ none →
        labels x ≠ none ∨ x < g.numVertices) := by
  intro fuel
  induction fuel with
  | zero =>
      intro labels stack h1 _ h3 h4 hf
      have hstack : stack = [] := by
        cases stack with
        | nil => rfl
        | cons a r => simp at hf
      subst hstack
      rw [cutLoop_zero]
      refine ⟨fun x l h => h, fun x l h => Or.inl h, h3, ?_, fun x h => Or.inl h⟩
      intro u hu x hx
      rcases h4 u hu with h | h
      · exact absurd h (List.not_mem_nil u)
      · exact h x hx
  | succ fuel ih =>
      intro labels stack h1 h2 h3 h4 hf
      cases stack with
      | nil =>
          rw [cutLoop_nil]
          refine ⟨fun x l h => h, fun x l h => Or.inl h, h3, ?_, fun x h => Or.inl h⟩
          intro u hu x hx
          rcases h4 u hu with h | h
          · exact absurd h (List.not_mem_nil u)
          · exact h x hx
      | cons cv rest =>
          rw [cutLoop_cons]
          obtain ⟨new, hst2, hnd, hmem, hlab, hsome⟩ :=
            scanStep_foldl_spec g w lab cv (g.outEdgeIndices cv) (labels, rest)
          dsimp only at hst2 hmem hlab hsome
          have hscan1 : (scanNeighbors g w lab cv (labels, rest)).1 =
              ((g.outEdgeIndices cv).foldl (scanStep g w lab cv) (labels, rest)).1 := rfl
          have hscan2 : (scanNeighbors g w lab cv (labels, rest)).2 =
              ((g.outEdgeIndices cv).foldl (scanStep g w lab cv) (labels, rest)).2 := rfl
          rw [hscan1, hscan2, hst2]
          set labels' :=
            ((g.outEdgeIndices cv).foldl (scanStep g w lab cv) (labels, rest)).1
            with hlabels'
          -- basic facts about the scan
          have hcvlab : labels cv = some lab := h1 cv (List.mem_cons_self cv rest)
          have hcvconn : ZeroConn g w seed cv := h2 cv (List.mem_cons_self cv rest)
          have hnewnone : ∀ x ∈ new, labels x = none := fun x hx => (hmem x hx).1
          have hnewstep : ∀ x ∈ new, ZeroStep g w cv x := by
            intro x hx
            obtain ⟨i, hi, hwi, ho⟩ := (hmem x hx).2
            exact ho ▸ outEdge_zeroStep g w cv i hi hwi
          have hnewconn : ∀ x ∈ new, ZeroConn g w seed x := fun x hx =>
            Relation.ReflTransGen.tail hcvconn (hnewstep x hx)
          have hnewlt : ∀ x ∈ new, x < g.numVertices := by
            intro x hx
            obtain ⟨i, hi, _, ho⟩ := (hmem x hx).2
            rw [mem_outEdgeIndices] at hi
            exact ho ▸ otherVertex_lt g hg i cv hi.1
          have hmono : ∀ x l, labels x = some l → labels' x = some l := by
            intro x l h
            rw [hlab x]
            by_cases hx : x ∈ new
            · rw [hnewnone x hx] at h
              exact absurd h (by simp)
            · rw [if_neg hx]; exact h
          -- IH hypotheses
          have ih1 : ∀ s ∈ new ++ rest, labels' s = some lab := by
            intro s hs
            rcases List.mem_append.1 hs with hs' | hs'
            · rw [hlab s, if_pos hs']
            · exact hmono s lab (h1 s (List.mem_cons_of_mem cv hs'))
          have ih2 : ∀ s ∈ new ++ rest, ZeroConn g w seed s := by
            intro s hs
            rcases List.mem_append.1 hs with hs' | hs'
            · exact hnewconn s hs'
            · exact h2 s (List.mem_cons_of_mem cv hs')
          have ih3 : ∀ x, labels' x = some lab → ZeroConn g w seed x := by
            intro x hx
            rw [hlab x] at hx
            by_cases hxn : x ∈ new
            · exact hnewconn x hxn
            · rw [if_neg hxn] at hx
              exact h3 x hx
          have ih4 : ∀ u, labels' u ≠ none →
              u ∈ new ++ rest ∨ ∀ x, ZeroStep g w u x → labels' x ≠ none := by
            intro u hu
            by_cases hun : u ∈ new
            · exact Or.inl (List.mem_append.2 (Or.inl hun))
            · rw [hlab u, if_neg hun] at hu
              rcases h4 u hu with hu' | hu'
              · rcases List.mem_cons.1 hu' with hcv | hrest
                · subst hcv
                  refine Or.inr ?_
                  intro x hx
                  obtain ⟨i, hi, hwi, ho⟩ := zeroStep_to_outEdge g w u x hx
                  have := hsome i hi hwi
                  rw [ho] at this
                  exact Option.isSome_iff_ne_none.1 this
                · exact Or.inl (List.mem_append.2 (Or.inr hrest))
              · refine Or.inr ?_
                intro x hx
                have := hu' x hx
                rw [hlab x]
                by_cases hxn : x ∈ new
                · rw [if_pos hxn]; simp
                · rw [if_neg hxn]; exact this
          have ihf : (new ++ rest).length + unlab g labels' ≤ fuel := by
            have hupd := unlab_update g labels new lab hnd hnewnone hnewlt
            have heq : labels' = fun x => if x ∈ new then some lab else labels x := by
              funext x
              exact hlab x
            rw [heq]
            rw [List.length_append]
            simp only [List.length_cons] at hf
            omega
          obtain ⟨r1, r2, r3, r5, r4⟩ := ih labels' (new ++ rest) ih1 ih2 ih3 ih4 ihf
          refine ⟨?_, ?_, r3, r5, ?_⟩
          · intro x l h
            exact r1 x l (hmono x l h)
          · intro x l h
            rcases r2 x l h with h' | h'
            · rw [hlab x] at h'
              by_cases hxn : x ∈ new
              · rw [if_pos hxn] at h'
                exact Or.inr (Option.some_inj.1 h'.symm)
              · rw [if_neg hxn] at h'
                exact Or.inl h'
            · exact Or.inr h'
          · intro x hx
            rcases r4 x hx with h' | h'
            · rw [hlab x] at h'
              by_cases hxn : x ∈ new
              · exact Or.inr (hnewlt x hxn)
              · rw [if_neg hxn] at h'
                exact Or.inl h'
            · exact Or.inr h'

/-! ## Invariants of the outer vertex scan -/

/-- `s` is the first-discovered (least-index) vertex of label class `l`. -/
def SeedOf (L : Nat → Option Nat) (l s : Nat) : Prop :=
  L s = some l ∧ ∀ u, L u = some l → s ≤ u

theorem seedOf_unique {L : Nat → Option Nat} {l s s' : Nat}
    (h : SeedOf L l s) (h' : SeedOf L l s') : s = s' :=
  Nat.le_antisymm (h.2 s' h'.1) (h'.2 s h.1)

/-- Invariant of the outer scan after the vertices `0 .. v0 - 1` have been
processed: (1) processed vertices are labelled; (2) labels lie in
`1 .. current_label`; (3) label classes are closed under traversable edges;
(4) two vertices of one class are connected; (5) every used label has a
first-discovered vertex among the processed ones; (6) labels are issued in
increasing order of their first-discovered vertex. -/
def OuterInv (g : UGraph) (w : List Int) (v0 : Nat)
    (st : (Nat → Option Nat) × Nat) : Prop :=
  (∀ u, u < v0 → st.1 u ≠ none) ∧
  (∀ x l, st.1 x = some l → 1 ≤ l ∧ l ≤ st.2) ∧
  (∀ u x l, ZeroStep g w u x → st.1 u = some l → st.1 x = some l) ∧
  (∀ x y l, st.1 x = some l → st.1 y = some l → ZeroConn g w x y) ∧
  (∀ l, 1 ≤ l → l ≤ st.2 → ∃ s, SeedOf st.1 l s ∧ s < v0) ∧
  (∀ l1 l2 s1 s2, SeedOf st.1 l1 s1 → SeedOf st.1 l2 s2 → l1 < l2 → s1 < s2) ∧
  (∀ u, st.1 u ≠ none → u < g.numVertices)

theorem cutOuterStep_none (g : UGraph) (w : List Int)
    (st : (Nat → Option Nat) × Nat) (v : Nat) (h : st.1 v = none) :
    cutOuterStep g w st v =
      (cutLoop g w (st.2 + 1) (g.numVertices + 1)
        (fun x => if x = v then some (st.2 + 1) else st.1 x) [v], st.2 + 1) := by
  unfold cutOuterStep
  rw [if_pos h]

theorem cutOuterStep_some (g : UGraph) (w : List Int)
    (st : (Nat → Option Nat) × Nat) (v : Nat) (h : ¬ st.1 v = none) :
    cutOuterStep g w st v = st := by
  unfold cutOuterStep
  rw [if_neg h]

theorem unlab_le (g : UGraph) (labels : Nat → Option Nat) :
    unlab g labels ≤ g.numVertices := by
  unfold unlab
  calc ((Finset.range g.numVertices).filter (fun v => labels v = none)).card
      ≤ (Finset.range g.numVertices).card := Finset.card_filter_le _ _
    _ = g.numVertices := Finset.card_range _

theorem unlab_single (g : UGraph) (labels : Nat → Option Nat) (v lab : Nat)
    (hv : v < g.numVertices) (hn : labels v = none) :
    1 + unlab g (fun x => if x = v then some lab else labels x) ≤
      unlab g labels := by
  have h := unlab_update g labels [v] lab (List.nodup_singleton v)
    (by simpa using hn) (by simpa using hv)
  have heq : (fun x => if x ∈ [v] then some lab else labels x) =
      (fun x => if x = v then some lab else labels x) := by
    funext x
    simp [List.mem_singleton]
  rw [heq] at h
  simp at h
  omega

/-- The outer-scan invariant is preserved by one iteration of the outer
loop. -/
theorem cutOuterStep_inv (g : UGraph) (hg : g.Valid) (w : List Int)
    (v0 : Nat) (st : (Nat → Option Nat) × Nat) (hv : v0 < g.numVertices)
    (hinv : OuterInv g w v0 st) :
    OuterInv g w (v0 + 1) (cutOuterStep g w st v0) := by
  obtain ⟨p1, o1, o2, o3, o6, o7, o0⟩ := hinv
  by_cases hnone : st.1 v0 = none
  · rw [cutOuterStep_none g w st v0 hnone]
    set lab := st.2 + 1 with hlabdef
    set labels1 := fun x => if x = v0 then some lab else st.1 x with hl1def
    have hL1 : ∀ x, labels1 x = if x = v0 then some lab else st.1 x :=
      fun _ => rfl
    have hL1v : labels1 v0 = some lab := by rw [hL1 v0, if_pos rfl]
    have h1 : ∀ s ∈ [v0], labels1 s = some lab := by
      intro s hs
      rw [List.mem_singleton] at hs
      subst hs
      exact hL1v
    have h2 : ∀ s ∈ [v0], ZeroConn g w v0 s := by
      intro s hs
      rw [List.mem_singleton] at hs
      subst hs
      exact Relation.ReflTransGen.refl
    have h3 : ∀ x, labels1 x = some lab → ZeroConn g w v0 x := by
      intro x hx
      rw [hL1 x] at hx
      by_cases hxv : x = v0
      · subst hxv
        exact Relation.ReflTransGen.refl
      · rw [if_neg hxv] at hx
        have := (o1 x lab hx).2
        omega
    have h4 : ∀ u, labels1 u ≠ none →
        u ∈ [v0] ∨ ∀ x, ZeroStep g w u x → labels1 x ≠ none := by
      intro u hu
      by_cases huv : u = v0
      · exact Or.inl (by rw [huv]; exact List.mem_singleton.2 rfl)
      · rw [hL1 u, if_neg huv] at hu
        refine Or.inr ?_
        intro x hx
        obtain ⟨l, hl⟩ := Option.ne_none_iff_exists'.1 hu
        have := o2 u x l hx hl
        rw [hL1 x]
        by_cases hxv : x = v0
        · rw [if_pos hxv]
          simp
        · rw [if_neg hxv, this]
          simp
    have hf : ([v0] : List Nat).length + unlab g labels1 ≤ g.numVertices + 1 := by
      have hs := unlab_single g st.1 v0 lab hv hnone
      have hle := unlab_le g st.1
      simp only [List.length_singleton]
      rw [hl1def]
      omega
    obtain ⟨r1, r2, r3, r5, r4⟩ :=
      cutLoop_spec g hg w lab v0 (g.numVertices + 1) labels1 [v0] h1 h2 h3 h4 hf
    set LF := cutLoop g w lab (g.numVertices + 1) labels1 [v0] with hLF
    -- class of any old label is unchanged
    have hcls : ∀ x l, l ≠ lab → (LF x = some l ↔ st.1 x = some l) := by
      intro x l hl
      constructor
      · intro hx
        rcases r2 x l hx with h' | h'
        · rw [hL1 x] at h'
          by_cases hxv : x = v0
          · rw [if_pos hxv] at h'
            exact absurd (Option.some_inj.1 h').symm hl
          · rw [if_neg hxv] at h'
            exact h'
        · exact absurd h' hl
      · intro hx
        have hxv : x ≠ v0 := by
          intro he
          rw [he, hnone] at hx
          exact Option.noConfusion hx
        refine r1 x l ?_
        rw [hL1 x, if_neg hxv]
        exact hx
    -- v0 is the seed of the fresh label class
    have hseedv0 : SeedOf LF lab v0 := by
      refine ⟨r1 v0 lab hL1v, ?_⟩
      intro u hu
      cases hcase : labels1 u with
      | some l' =>
          have h5 := r1 u l' hcase
          rw [hu] at h5
          have hll : l' = lab := (Option.some_inj.1 h5).symm
          rw [hL1 u] at hcase
          by_cases huv : u = v0
          · omega
          · rw [if_neg huv] at hcase
            have h6 := (o1 u l' hcase).2
            omega
      | none =>
          rw [hL1 u] at hcase
          by_cases huv : u = v0
          · rw [if_pos huv] at hcase
            exact Option.noConfusion hcase
          · rw [if_neg huv] at hcase
            by_contra hlt
            exact p1 u (by omega) hcase
    -- old seeds are preserved
    have hseedold : ∀ l s, l ≠ lab → (SeedOf LF l s ↔ SeedOf st.1 l s) := by
      intro l s hl
      constructor
      · intro ⟨ha, hb⟩
        exact ⟨(hcls s l hl).1 ha, fun u hu => hb u ((hcls u l hl).2 hu)⟩
      · intro ⟨ha, hb⟩
        exact ⟨(hcls s l hl).2 ha, fun u hu => hb u ((hcls u l hl).1 hu)⟩
    refine ⟨?_, ?_, ?_, ?_, ?_, ?_, ?_⟩
    · -- processed vertices labelled
      intro u hu
      show LF u ≠ none
      by_cases huv : u = v0
      · rw [huv, r1 v0 lab hL1v]
        simp
      · have hult : u < v0 := by omega
        obtain ⟨l, hl⟩ := Option.ne_none_iff_exists'.1 (p1 u hult)
        have hLu : LF u = some l := by
          refine r1 u l ?_
          rw [hL1 u, if_neg huv]
          exact hl
        rw [hLu]
        simp
    · -- label range
      intro x l hx
      have hx' : LF x = some l := hx
      show 1 ≤ l ∧ l ≤ lab
      rcases r2 x l hx' with h' | h'
      · rw [hL1 x] at h'
        by_cases hxv : x = v0
        · rw [if_pos hxv] at h'
          have : l = lab := (Option.some_inj.1 h').symm
          omega
        · rw [if_neg hxv] at h'
          have := o1 x l h'
          omega
      · omega
    · -- classes closed under traversable edges
      intro u x l hstep hu
      have hu : LF u = some l := hu
      show LF x = some l
      by_cases hl : l = lab
      · subst hl
        have hx := r5 u (by rw [hu]; simp) x hstep
        obtain ⟨l', hl'⟩ := Option.ne_none_iff_exists'.1 hx
        by_cases hll : l' = lab
        · rw [hll] at hl'
          exact hl'
        · have hxs := (hcls x l' hll).1 hl'
          have hus := o2 x u l' (zeroStep_symm g w hstep) hxs
          have hcontra := (hcls u l' hll).2 hus
          rw [hu] at hcontra
          exact absurd (Option.some_inj.1 hcontra).symm hll
      · have hus := (hcls u l hl).1 hu
        have hxs := o2 u x l hstep hus
        exact (hcls x l hl).2 hxs
    · -- classes are connected
      intro x y l hx hy
      have hx : LF x = some l := hx
      have hy : LF y = some l := hy
      by_cases hl : l = lab
      · subst hl
        exact Relation.ReflTransGen.trans
          (zeroConn_symm g w (r3 x hx)) (r3 y hy)
      · exact o3 x y l ((hcls x l hl).1 hx) ((hcls y l hl).1 hy)
    · -- every used label has a processed seed
      intro l h1l h2l
      by_cases hl : l = lab
      · subst hl
        exact ⟨v0, hseedv0, by omega⟩
      · have h2l' : l ≤ st.2 := by
          have : l ≤ lab := h2l
          omega
        obtain ⟨s, hs, hslt⟩ := o6 l h1l h2l'
        exact ⟨s, (hseedold l s hl).2 hs, by omega⟩
    · -- seeds are discovered in label order
      intro l1 l2 s1 s2 hs1 hs2 hlt
      have hs1 : SeedOf LF l1 s1 := hs1
      have hs2 : SeedOf LF l2 s2 := hs2
      by_cases hl2 : l2 = lab
      · subst hl2
        have hs2v : s2 = v0 := seedOf_unique hs2 hseedv0
        have hl1 : l1 ≠ lab := by omega
        have h1l1 : 1 ≤ l1 := by
          have := o1 s1 l1 ((hcls s1 l1 hl1).1 hs1.1)
          exact this.1
        have h2l1 : l1 ≤ st.2 := by
          have := o1 s1 l1 ((hcls s1 l1 hl1).1 hs1.1)
          omega
        obtain ⟨s, hs, hslt⟩ := o6 l1 h1l1 h2l1
        have : s1 = s := seedOf_unique hs1 ((hseedold l1 s hl1).2 hs)
        omega
      · have hl1 : l1 ≠ lab := by
          have h2l2 : l2 ≤ lab := (o1 s2 l2 ((hcls s2 l2 hl2).1 hs2.1)).2.trans (by omega)
          omega
        exact o7 l1 l2 s1 s2 ((hseedold l1 s1 hl1).1 hs1)
          ((hseedold l2 s2 hl2).1 hs2) hlt
    · -- labelled vertices are valid vertex indices
      intro u hu
      have hu' : LF u ≠ none := hu
      rcases r4 u hu' with h' | h'
      · rw [hL1 u] at h'
        by_cases huv : u = v0
        · omega
        · rw [if_neg huv] at h'
          exact o0 u h'
      · exact h'
  · rw [cutOuterStep_some g w st v0 hnone]
    refine ⟨?_, o1, o2, o3, ?_, o7, o0⟩
    · intro u hu
      by_cases huv : u = v0
      · subst huv
        exact hnone
      · exact p1 u (by omega)
    · intro l h1l h2l
      obtain ⟨s, hs, hslt⟩ := o6 l h1l h2l
      exact ⟨s, hs, by omega⟩

/-- The outer-scan invariant holds of the completed labelling run. -/
theorem cutRun_inv (g : UGraph) (hg : g.Valid) (w : List Int) :
    OuterInv g w g.numVertices (cutRun g w) := by
  have haux : ∀ k, k ≤ g.numVertices →
      OuterInv g w k
        ((List.range k).foldl (cutOuterStep g w) (fun _ => none, 0)) := by
    intro k
    induction k with
    | zero =>
        intro _
        refine ⟨?_, ?_, ?_, ?_, ?_, ?_, ?_⟩
        · intro u hu
          exact absurd hu (Nat.not_lt_zero u)
        · intro x l hx
          exact Option.noConfusion hx
        · intro u x l _ hu
          exact Option.noConfusion hu
        · intro x y l hx _
          exact Option.noConfusion hx
        · intro l h1 h2
          have h2' : l ≤ 0 := h2
          exact absurd (h1.trans h2') (by omega)
        · intro l1 l2 s1 s2 hs1 _ _
          exact Option.noConfusion hs1.1
        · intro u hu
          exact absurd rfl hu
    | succ k ih =>
        intro hk
        rw [List.range_succ, List.foldl_append, List.foldl_cons, List.foldl_nil]
        exact cutOuterStep_inv g hg w k _ (by omega) (ih (by omega))
  exact haux g.numVertices (le_refl _)

/-- Reading the materialised label array within range recovers the label
map. -/
theorem materialize_getD (f : Nat → Option Nat) (n a : Nat) (ha : a < n) :
    ((List.range n).map f).getD a none = f a := by
  rw [List.getD_eq_getElem?_getD,
    List.getElem?_eq_getElem (by simpa using ha)]
  simp

theorem materialize_getD_ge (f : Nat → Option Nat) (n a : Nat) (ha : n ≤ a) :
    ((List.range n).map f).getD a none = none := by
  rw [List.getD_eq_default]
  simpa using ha

/-- When the precondition checks pass, the labelling returns the
materialised label map. -/
theorem cut_ok (g : UGraph) (xw : NDArray) (hdim : xw.dimension = 1)
    (hsz : g.numEdges = xw.size) :
    graph_cut_2_labelisation g xw =
      .ok ((List.range g.numVertices).map (cutRun g xw.data).1) := by
  unfold graph_cut_2_labelisation
  rw [if_neg (fun h => h hdim), if_neg (fun h => h hsz)]

/-- **C1.** For every well-formed graph and every 1-d edge-weight array of
length `num_edges`, `graph_cut_2_labelisation` succeeds and returns a
vertex-indexed label array in which two vertices receive the same label if
and only if they are connected by a path using only edges whose weight is
zero (edges not marked as cut). -/
theorem cut_labels_eq_iff_zeroConn (g : UGraph) (xw : NDArray)
    (hg : g.Valid) (hdim : xw.dimension = 1) (hsz : g.numEdges = xw.size) :
    ∃ ls, graph_cut_2_labelisation g xw = .ok ls ∧
      ∀ a, a < g.numVertices → ∀ b, b < g.numVertices →
        (ls.getD a none = ls.getD b none ↔ ZeroConn g xw.data a b) := by
  obtain ⟨p1, o1, o2, o3, o6, o7, o0⟩ := cutRun_inv g hg xw.data
  refine ⟨_, cut_ok g xw hdim hsz, ?_⟩
  intro a ha b hb
  rw [materialize_getD _ _ a ha, materialize_getD _ _ b hb]
  obtain ⟨la, hla⟩ := Option.ne_none_iff_exists'.1 (p1 a ha)
  obtain ⟨lb, hlb⟩ := Option.ne_none_iff_exists'.1 (p1 b hb)
  constructor
  · intro heq
    rw [hla, hlb] at heq
    have heq' : la = lb := Option.some_inj.1 heq
    subst heq'
    exact o3 a b la hla hlb
  · intro hconn
    have hlabel : ∀ c, ZeroConn g xw.data a c →
        (cutRun g xw.data).1 c = some la := by
      intro c hc
      induction hc with
      | refl => exact hla
      | tail _ hstep ih => exact o2 _ _ la hstep ih
    have hb' := hlabel b hconn
    rw [hla, hlb]
    rw [hb'] at hlb
    exact hlb.symm ▸ rfl

theorem cut_labels_eq_iff_zeroConn_witness :
    (pathGraph 15).Valid ∧
      (NDArray.flat [3, 0, 0, 1, 3, 0, 1, 0, 2, 0, 1, 0, 3, 0]).dimension = 1 ∧
      (pathGraph 15).numEdges =
        (NDArray.flat [3, 0, 0, 1, 3, 0, 1, 0, 2, 0, 1, 0, 3, 0]).size ∧
      (∃ ls, graph_cut_2_labelisation (pathGraph 15)
          (NDArray.flat [3, 0, 0, 1, 3, 0, 1, 0, 2, 0, 1, 0, 3, 0]) = .ok ls ∧
        ∀ a, a < (pathGraph 15).numVertices →
          ∀ b, b < (pathGraph 15).numVertices →
            (ls.getD a none = ls.getD b none ↔
              ZeroConn (pathGraph 15) [3, 0, 0, 1, 3, 0, 1, 0, 2, 0, 1, 0, 3, 0] a b)) :=
  ⟨by decide, by decide, by decide,
    cut_labels_eq_iff_zeroConn (pathGraph 15)
      (NDArray.flat [3, 0, 0, 1, 3, 0, 1, 0, 2, 0, 1, 0, 3, 0])
      (by decide) (by decide) (by decide)⟩

/-- **C10.** On every well-formed graph whose edge-weight array passes the
precondition checks, `graph_cut_2_labelisation` labels every vertex: no
entry of the returned array is left at the unset sentinel (`invalid_index`,
modelled `none`), and every entry lies in `1 .. k` where `k` is the final
label counter. -/
theorem cut_labels_total_range (g : UGraph) (xw : NDArray) (hg : g.Valid)
    (hdim : xw.dimension = 1) (hsz : g.numEdges = xw.size) :
    ∃ ls, graph_cut_2_labelisation g xw = .ok ls ∧
      ∀ v, v < g.numVertices → ∃ l, ls.getD v none = some l ∧
        1 ≤ l ∧ l ≤ cutNumLabels g xw := by
  obtain ⟨p1, o1, _, _, _, _, _⟩ := cutRun_inv g hg xw.data
  refine ⟨_, cut_ok g xw hdim hsz, ?_⟩
  intro v hv
  rw [materialize_getD _ _ v hv]
  obtain ⟨l, hl⟩ := Option.ne_none_iff_exists'.1 (p1 v hv)
  exact ⟨l, hl, (o1 v l hl).1, (o1 v l hl).2⟩

theorem cut_labels_total_range_witness :
    (pathGraph 15).Valid ∧
      (NDArray.flat [3, 0, 0, 1, 3, 0, 1, 0, 2, 0, 1, 0, 3, 0]).dimension = 1 ∧
      (pathGraph 15).numEdges =
        (NDArray.flat [3, 0, 0, 1, 3, 0, 1, 0, 2, 0, 1, 0, 3, 0]).size ∧
      (∃ ls, graph_cut_2_labelisation (pathGraph 15)
          (NDArray.flat [3, 0, 0, 1, 3, 0, 1, 0, 2, 0, 1, 0, 3, 0]) = .ok ls ∧
        ∀ v, v < (pathGraph 15).numVertices → ∃ l, ls.getD v none = some l ∧
          1 ≤ l ∧ l ≤ cutNumLabels (pathGraph 15)
            (NDArray.flat [3, 0, 0, 1, 3, 0, 1, 0, 2, 0, 1, 0, 3, 0])) :=
  ⟨by decide, by decide, by decide,
    cut_labels_total_range (pathGraph 15)
      (NDArray.flat [3, 0, 0, 1, 3, 0, 1, 0, 2, 0, 1, 0, 3, 0])
      (by decide) (by decide) (by decide)⟩

/-- **C5.** In the returned label array, labels are assigned in increasing
order starting at 1, exactly one label per connected component of the uncut
subgraph, in the order the components are first discovered by the outer
scan of vertices in increasing index order: every label `1 .. k` is used
and has a least (first-discovered) vertex, a label is shared exactly by
connected vertices, and the order of the labels coincides with the order of
their first-discovered vertices. -/
theorem cut_labels_seed_order (g : UGraph) (xw : NDArray) (hg : g.Valid)
    (hdim : xw.dimension = 1) (hsz : g.numEdges = xw.size) :
    ∃ ls, graph_cut_2_labelisation g xw = .ok ls ∧
      (∀ l, 1 ≤ l → l ≤ cutNumLabels g xw →
        ∃ s, s < g.numVertices ∧ IsLeast {v | ls.getD v none = some l} s) ∧
      (∀ a, a < g.numVertices → ∀ b, b < g.numVertices →
        (ls.getD a none = ls.getD b none ↔ ZeroConn g xw.data a b)) ∧
      (∀ l1 l2 s1 s2, IsLeast {v | ls.getD v none = some l1} s1 →
        IsLeast {v | ls.getD v none = some l2} s2 → (l1 < l2 ↔ s1 < s2)) := by
  obtain ⟨p1, o1, o2, o3, o6, o7, o0⟩ := cutRun_inv g hg xw.data
  refine ⟨_, cut_ok g xw hdim hsz, ?_, ?_, ?_⟩
  case refine_2 =>
    intro a ha b hb
    rw [materialize_getD _ _ a ha, materialize_getD _ _ b hb]
    obtain ⟨la, hla⟩ := Option.ne_none_iff_exists'.1 (p1 a ha)
    obtain ⟨lb, hlb⟩ := Option.ne_none_iff_exists'.1 (p1 b hb)
    constructor
    · intro heq
      rw [hla, hlb] at heq
      have heq' : la = lb := Option.some_inj.1 heq
      subst heq'
      exact o3 a b la hla hlb
    · intro hconn
      have hlabel : ∀ c, ZeroConn g xw.data a c →
          (cutRun g xw.data).1 c = some la := by
        intro c hc
        induction hc with
        | refl => exact hla
        | tail _ hstep ih => exact o2 _ _ la hstep ih
      have hb' := hlabel b hconn
      rw [hla, hlb]
      rw [hb'] at hlb
      exact hlb.symm ▸ rfl
  all_goals
    have hset : ∀ l,
        {v | ((List.range g.numVertices).map (cutRun g xw.data).1).getD v none
            = some l} = {v | (cutRun g xw.data).1 v = some l} := by
      intro l
      ext v
      simp only [Set.mem_setOf_eq]
      by_cases hv : v < g.numVertices
      · rw [materialize_getD _ _ v hv]
      · rw [materialize_getD_ge _ _ v (by omega)]
        constructor
        · intro h
          exact Option.noConfusion h
        · intro h
          have := o0 v (by rw [h]; simp)
          omega
  all_goals
    have hseediff : ∀ l s,
        IsLeast {v | (cutRun g xw.data).1 v = some l} s ↔
          SeedOf (cutRun g xw.data).1 l s := by
      intro l s
      constructor
      · intro ⟨ha, hb⟩
        exact ⟨ha, fun u hu => hb hu⟩
      · intro ⟨ha, hb⟩
        exact ⟨ha, fun u hu => hb u hu⟩
  case refine_1 =>
    intro l h1 h2
    have h2' : l ≤ (cutRun g xw.data).2 := h2
    obtain ⟨s, hs, hslt⟩ := o6 l h1 h2'
    refine ⟨s, hslt, ?_⟩
    rw [hset l]
    exact (hseediff l s).2 hs
  case refine_3 =>
    intro l1 l2 s1 s2 h1 h2
    rw [hset l1] at h1
    rw [hset l2] at h2
    have hs1 := (hseediff l1 s1).1 h1
    have hs2 := (hseediff l2 s2).1 h2
    constructor
    · intro hlt
      exact o7 l1 l2 s1 s2 hs1 hs2 hlt
    · intro hlt
      rcases Nat.lt_trichotomy l1 l2 with h | h | h
      · exact h
      · subst h
        have := seedOf_unique hs1 hs2
        omega
      · have := o7 l2 l1 s2 s1 hs2 hs1 h
        omega

theorem cut_labels_seed_order_witness :
    (pathGraph 15).Valid ∧
      (NDArray.flat [3, 0, 0, 1, 3, 0, 1, 0, 2, 0, 1, 0, 3, 0]).dimension = 1 ∧
      (pathGraph 15).numEdges =
        (NDArray.flat [3, 0, 0, 1, 3, 0, 1, 0, 2, 0, 1, 0, 3, 0]).size ∧
      (∃ ls, graph_cut_2_labelisation (pathGraph 15)
          (NDArray.flat [3, 0, 0, 1, 3, 0, 1, 0, 2, 0, 1, 0, 3, 0]) = .ok ls ∧
        (∀ l, 1 ≤ l →
          l ≤ cutNumLabels (pathGraph 15)
            (NDArray.flat [3, 0, 0, 1, 3, 0, 1, 0, 2, 0, 1, 0, 3, 0]) →
          ∃ s, s < (pathGraph 15).numVertices ∧
            IsLeast {v | ls.getD v none = some l} s) ∧
        (∀ a, a < (pathGraph 15).numVertices →
          ∀ b, b < (pathGraph 15).numVertices →
            (ls.getD a none = ls.getD b none ↔
              ZeroConn (pathGraph 15) [3, 0, 0, 1, 3, 0, 1, 0, 2, 0, 1, 0, 3, 0] a b)) ∧
        (∀ l1 l2 s1 s2, IsLeast {v | ls.getD v none = some l1} s1 →
          IsLeast {v | ls.getD v none = some l2} s2 → (l1 < l2 ↔ s1 < s2))) :=
  ⟨by decide, by decide, by decide,
    cut_labels_seed_order (pathGraph 15)
      (NDArray.flat [3, 0, 0, 1, 3, 0, 1, 0, 2, 0, 1, 0, 3, 0])
      (by decide) (by decide) (by decide)⟩

/-! ## Dependence on the zero pattern only -/

theorem scanStep_pattern (g : UGraph) (xs ys : List Int) (lab cv : Nat)
    (hpat : ∀ i, i < g.numEdges → (xs.getD i 0 = 0 ↔ ys.getD i 0 = 0)) :
    ∀ is : List Nat, (∀ i ∈ is, i < g.numEdges) →
      ∀ st, is.foldl (scanStep g xs lab cv) st =
        is.foldl (scanStep g ys lab cv) st := by
  intro is
  induction is with
  | nil =>
      intro _ st
      rfl
  | cons i rest ih =>
      intro hmem st
      rw [List.foldl_cons, List.foldl_cons]
      have hi : i < g.numEdges := hmem i (List.mem_cons_self i rest)
      have hstep : scanStep g xs lab cv st i = scanStep g ys lab cv st i := by
        by_cases hw : xs.getD i 0 = 0
        · have hw' : ys.getD i 0 = 0 := (hpat i hi).1 hw
          by_cases hn : st.1 (otherVertex (g.edge i) cv) = none
          · rw [scanStep_push g xs lab cv st i hw hn,
              scanStep_push g ys lab cv st i hw' hn]
          · rw [scanStep_old g xs lab cv st i hw hn,
              scanStep_old g ys lab cv st i hw' hn]
        · have hw' : ¬ ys.getD i 0 = 0 := fun hh => hw ((hpat i hi).2 hh)
          rw [scanStep_cut g xs lab cv st i hw,
            scanStep_cut g ys lab cv st i hw']
      rw [hstep]
      exact ih (fun j hj => hmem j (List.mem_cons_of_mem i hj)) _

theorem cutLoop_pattern (g : UGraph) (xs ys : List Int) (lab : Nat)
    (hpat : ∀ i, i < g.numEdges → (xs.getD i 0 = 0 ↔ ys.getD i 0 = 0)) :
    ∀ fuel labels stack,
      cutLoop g xs lab fuel labels stack =
        cutLoop g ys lab fuel labels stack := by
  intro fuel
  induction fuel with
  | zero =>
      intro labels stack
      rfl
  | succ fuel ih =>
      intro labels stack
      cases stack with
      | nil => rfl
      | cons cv rest =>
          rw [cutLoop_cons, cutLoop_cons]
          have hscan : scanNeighbors g xs lab cv (labels, rest) =
              scanNeighbors g ys lab cv (labels, rest) := by
            unfold scanNeighbors
            exact scanStep_pattern g xs ys lab cv hpat (g.outEdgeIndices cv)
              (fun j hj => ((mem_outEdgeIndices g cv j).1 hj).1) (labels, rest)
          rw [hscan]
          exact ih _ _

theorem cutRun_pattern (g : UGraph) (xs ys : List Int)
    (hpat : ∀ i, i < g.numEdges → (xs.getD i 0 = 0 ↔ ys.getD i 0 = 0)) :
    cutRun g xs = cutRun g ys := by
  unfold cutRun
  have haux : ∀ (vs : List Nat) st,
      vs.foldl (cutOuterStep g xs) st = vs.foldl (cutOuterStep g ys) st := by
    intro vs
    induction vs with
    | nil =>
        intro st
        rfl
    | cons v rest ih =>
        intro st
        rw [List.foldl_cons, List.foldl_cons]
        have hstep : cutOuterStep g xs st v = cutOuterStep g ys st v := by
          by_cases hn : st.1 v = none
          · rw [cutOuterStep_none g xs st v hn, cutOuterStep_none g ys st v hn,
              cutLoop_pattern g xs ys (st.2 + 1) hpat]
          · rw [cutOuterStep_some g xs st v hn, cutOuterStep_some g ys st v hn]
        rw [hstep]
        exact ih _
  exact haux _ _

/-- **C6.** The output of `graph_cut_2_labelisation` depends on the
edge-weight array only through its zero/non-zero pattern: for any two 1-d
edge-weight arrays of the same length in which exactly the same edge
indices hold zero, the two calls on the same graph return identical
results. -/
theorem cut_zero_pattern (g : UGraph) (xs ys : List Int)
    (hlen : xs.length = ys.length)
    (hpat : ∀ i, i < xs.length → (xs.getD i 0 = 0 ↔ ys.getD i 0 = 0)) :
    graph_cut_2_labelisation g (NDArray.flat xs) =
      graph_cut_2_labelisation g (NDArray.flat ys) := by
  unfold graph_cut_2_labelisation
  by_cases hsz : g.numEdges = xs.length
  · have hp' : ∀ i, i < g.numEdges → (xs.getD i 0 = 0 ↔ ys.getD i 0 = 0) := by
      intro i hi
      exact hpat i (by omega)
    rw [if_neg (show ¬ (NDArray.flat xs).dimension ≠ 1 from fun h => h rfl),
      if_neg (show ¬ (NDArray.flat ys).dimension ≠ 1 from fun h => h rfl),
      if_neg (show ¬ g.numEdges ≠ (NDArray.flat xs).size from fun h => h hsz),
      if_neg (show ¬ g.numEdges ≠ (NDArray.flat ys).size from
        fun h => h (hsz.trans hlen)),
      show (NDArray.flat xs).data = xs from rfl,
      show (NDArray.flat ys).data = ys from rfl,
      cutRun_pattern g xs ys hp']
  · rw [if_neg (show ¬ (NDArray.flat xs).dimension ≠ 1 from fun h => h rfl),
      if_neg (show ¬ (NDArray.flat ys).dimension ≠ 1 from fun h => h rfl),
      if_pos (show g.numEdges ≠ (NDArray.flat xs).size from hsz),
      if_pos (show g.numEdges ≠ (NDArray.flat ys).size from
        fun h => hsz (h.trans hlen.symm))]

theorem cut_zero_pattern_witness :
    ([3, 0, 0, 1, 3, 0, 1, 0, 2, 0, 1, 0, 3, 0] : List Int).length =
      ([1, 0, 0, 7, 9, 0, 4, 0, 5, 0, 2, 0, 8, 0] : List Int).length ∧
    (∀ i, i < ([3, 0, 0, 1, 3, 0, 1, 0, 2, 0, 1, 0, 3, 0] : List Int).length →
      (([3, 0, 0, 1, 3, 0, 1, 0, 2, 0, 1, 0, 3, 0] : List Int).getD i 0 = 0 ↔
        ([1, 0, 0, 7, 9, 0, 4, 0, 5, 0, 2, 0, 8, 0] : List Int).getD i 0 = 0)) ∧
    graph_cut_2_labelisation (pathGraph 15)
        (NDArray.flat [3, 0, 0, 1, 3, 0, 1, 0, 2, 0, 1, 0, 3, 0]) =
      graph_cut_2_labelisation (pathGraph 15)
        (NDArray.flat [1, 0, 0, 7, 9, 0, 4, 0, 5, 0, 2, 0, 8, 0]) :=
  ⟨by decide, by decide,
    cut_zero_pattern (pathGraph 15)
      [3, 0, 0, 1, 3, 0, 1, 0, 2, 0, 1, 0, 3, 0]
      [1, 0, 0, 7, 9, 0, 4, 0, 5, 0, 2, 0, 8, 0] (by decide) (by decide)⟩

/-! ## Error handling of the precondition checks -/

/-- **C7.** `graph_cut_2_labelisation` fails with an error when the
edge-weight array is not one-dimensional or when its length differs from
`num_edges`; the dimension check comes first, the checks precede the
computation, and in either failure case no label array is produced (no
partial result: the function returns an error value and nothing else). -/
theorem cut_precondition_errors (g : UGraph) (xw : NDArray)
    (h : xw.dimension ≠ 1 ∨ xw.size ≠ g.numEdges) :
    (xw.dimension ≠ 1 →
      graph_cut_2_labelisation g xw = .error "Edge weights must be scalar.") ∧
    (xw.dimension = 1 → xw.size ≠ g.numEdges →
      graph_cut_2_labelisation g xw =
        .error "Edge weights size does not match graph number of edges.") ∧
    (∀ ls, graph_cut_2_labelisation g xw ≠ .ok ls) := by
  refine ⟨?_, ?_, ?_⟩
  · intro hd
    unfold graph_cut_2_labelisation
    rw [if_pos hd]
  · intro hd hs
    unfold graph_cut_2_labelisation
    rw [if_neg (fun hh => hh hd), if_pos (fun hh => hs hh.symm)]
  · intro ls hok
    unfold graph_cut_2_labelisation at hok
    rcases h with hd | hs
    · rw [if_pos hd] at hok
      exact Except.noConfusion hok
    · by_cases hd : xw.dimension ≠ 1
      · rw [if_pos hd] at hok
        exact Except.noConfusion hok
      · rw [if_neg hd, if_pos (fun hh => hs hh.symm)] at hok
        exact Except.noConfusion hok

theorem cut_precondition_errors_witness :
    ((NDArray.flat [3, 0, 0, 1, 3, 0, 1, 0, 2, 0, 1, 0, 3, 0]).dimension ≠ 1 ∨
      (NDArray.flat [3, 0, 0, 1, 3, 0, 1, 0, 2, 0, 1, 0, 3, 0]).size ≠
        (pathGraph 16).numEdges) ∧
    (((NDArray.flat [3, 0, 0, 1, 3, 0, 1, 0, 2, 0, 1, 0, 3, 0]).dimension ≠ 1 →
      graph_cut_2_labelisation (pathGraph 16)
        (NDArray.flat [3, 0, 0, 1, 3, 0, 1, 0, 2, 0, 1, 0, 3, 0]) =
          .error "Edge weights must be scalar.") ∧
    ((NDArray.flat [3, 0, 0, 1, 3, 0, 1, 0, 2, 0, 1, 0, 3, 0]).dimension = 1 →
      (NDArray.flat [3, 0, 0, 1, 3, 0, 1, 0, 2, 0, 1, 0, 3, 0]).size ≠
        (pathGraph 16).numEdges →
      graph_cut_2_labelisation (pathGraph 16)
        (NDArray.flat [3, 0, 0, 1, 3, 0, 1, 0, 2, 0, 1, 0, 3, 0]) =
          .error "Edge weights size does not match graph number of edges.") ∧
    (∀ ls, graph_cut_2_labelisation (pathGraph 16)
        (NDArray.flat [3, 0, 0, 1, 3, 0, 1, 0, 2, 0, 1, 0, 3, 0]) ≠ .ok ls)) :=
  ⟨by decide,
    cut_precondition_errors (pathGraph 16)
      (NDArray.flat [3, 0, 0, 1, 3, 0, 1, 0, 2, 0, 1, 0, 3, 0]) (by decide)⟩

/-! ## The concrete pink-IO cut scenario -/

/-- **C4** (counterexample to the claim as stated): a path graph of 16
vertices 0-1-...-15 has 15 edges, so the 14-element edge-weight array
[3,0,0,1,3,0,1,0,2,0,1,0,3,0] fails the eager size check and
`graph_cut_2_labelisation` produces an error, not a label array with 5
distinct labels. -/
theorem cut_path16_no_labels :
    graph_cut_2_labelisation (pathGraph 16)
      (NDArray.flat [3, 0, 0, 1, 3, 0, 1, 0, 2, 0, 1, 0, 3, 0]) =
      .error "Edge weights size does not match graph number of edges." := rfl

/-- **C4** (amended): the weight array [3,0,0,1,3,0,1,0,2,0,1,0,3,0] comes
from the pink-IO test graph, a path of 15 vertices 0-1-...-14 with 14
edges.  On that graph the cut labelling produces exactly 8 distinct labels
1..8 (the final counter is 8), and the label boundaries are exactly at the
7 non-zero-weight edges, the non-zero positions being the edge indices
0, 3, 4, 6, 8, 10, 12. -/
theorem cut_path15_labels :
    graph_cut_2_labelisation (pathGraph 15)
      (NDArray.flat [3, 0, 0, 1, 3, 0, 1, 0, 2, 0, 1, 0, 3, 0]) =
      .ok [some 1, some 2, some 2, some 2, some 3, some 4, some 4, some 5,
        some 5, some 6, some 6, some 7, some 7, some 8, some 8] ∧
    cutNumLabels (pathGraph 15)
      (NDArray.flat [3, 0, 0, 1, 3, 0, 1, 0, 2, 0, 1, 0, 3, 0]) = 8 ∧
    (List.range 14).filter
      (fun i => ¬ ([3, 0, 0, 1, 3, 0, 1, 0, 2, 0, 1, 0, 3, 0] : List Int).getD i 0 = 0)
      = [0, 3, 4, 6, 8, 10, 12] ∧
    (List.range 14).filter
      (fun i => ¬ ([some 1, some 2, some 2, some 2, some 3, some 4, some 4,
          some 5, some 5, some 6, some 6, some 7, some 7, some 8,
          (some 8 : Option Nat)]).getD i none
        = ([some 1, some 2, some 2, some 2, some 3, some 4, some 4, some 5,
          some 5, some 6, some 6, some 7, some 7, some 8, some 8]).getD (i + 1) none)
      = [0, 3, 4, 6, 8, 10, 12] := by
  refine ⟨rfl, by decide, by decide, by decide⟩

/-! ## Tree model

A higra tree is given by its parent array: `numVertices = parents.length`
vertices, leaves `0 .. numLeaves - 1`, the root is the last vertex and is
its own parent, and children always precede their parents (topological
numbering).  Parents of all vertices are internal vertices
(`numLeaves ≤ parent v`). -/

structure HgTree where
  numLeaves : Nat
  parents : List Nat
deriving Repr

def HgTree.numVertices (t : HgTree) : Nat := t.parents.length

def HgTree.root (t : HgTree) : Nat := t.numVertices - 1

def HgTree.parent (t : HgTree) (v : Nat) : Nat := t.parents.getD v v

/-- Well-formedness of the parent array (the invariants the spec states for
the tree model). -/
def HgTree.Valid (t : HgTree) : Prop :=
  0 < t.numVertices ∧ t.numLeaves ≤ t.numVertices ∧
  t.parent t.root = t.root ∧
  ∀ v, v < t.root →
    v < t.parent v ∧ t.parent v < t.numVertices ∧ t.numLeaves ≤ t.parent v

instance (t : HgTree) : Decidable t.Valid := by
  unfold HgTree.Valid
  infer_instance

/-- The children of `v`, in increasing index order.  By the topological
numbering invariant children precede their parents, so it suffices to scan
the vertices below `v`. -/
def HgTree.children (t : HgTree) (v : Nat) : List Nat :=
  (List.range v).filter (fun c => t.parent c = v)

/-- The concrete binary tree of the spec scenarios: 4 leaves 0-3, internal
vertices 4 (parent of 0,1) and 5 (parent of 2,3), root 6 (parent of 4,5). -/
def treeC2 : HgTree := ⟨4, [4, 4, 5, 5, 6, 6, 6]⟩

/-! ## Reduction strategies

`hg::accumulators` (the enum of reducer selectors) and the reduction each
member applies to the list of child values, visited in index order. -/

inductive Accumulators
  | min | max | mean | counter | sum | prod | first | last
deriving Repr, DecidableEq

/-- Modelled from the spec: the reduction strategies of the accumulation
engine (`higra/accumulator/tree_accumulator.hpp` is not among the given
sources; spec §3 "Reduction Strategy" and §4.1).  Each strategy reduces the
list of child values, visited in index order.  `mean` divides the sum by
the count at finalize.  The neutral value of `min`/`max`/`first`/`last` on
an empty child list is not representable in `ℚ` and is modelled as `0`;
none of the claims exercises it. -/
def reduceChildren : Accumulators → List Rat → Rat
  | .sum, xs => xs.foldl (· + ·) 0
  | .prod, xs => xs.foldl (· * ·) 1
  | .counter, xs => xs.length
  | .mean, xs => xs.foldl (· + ·) 0 / xs.length
  | .min, [] => 0
  | .min, x :: r => r.foldl min x
  | .max, [] => 0
  | .max, x :: r => r.foldl max x
  | .first, xs => xs.headD 0
  | .last, xs => xs.getLastD 0

/-- One update of the sequential accumulation pass: vertex `v` receives the
reduction of the (already computed) values of its children. -/
def accStep (t : HgTree) (acc : Accumulators) (out : Nat → Rat) (v : Nat) :
    Nat → Rat :=
  fun x => if x = v then reduceChildren acc ((t.children v).map out) else out x

/-- Modelled from the spec: `hg::accumulate_sequential` (the engine header
is not among the given sources; spec §4.1): the output copies the leaf
values at the leaf positions and, processing vertices in increasing index
order from `num_leaves`, stores at each internal vertex the reduction of
the already computed outputs of its children. -/
def accSeqFun (t : HgTree) (leafValues : List Rat) (acc : Accumulators) :
    Nat → Rat :=
  (List.range' t.numLeaves (t.numVertices - t.numLeaves)).foldl
    (accStep t acc)
    (fun v => if v < t.numLeaves then leafValues.getD v 0 else 0)

def accumulate_sequential (t : HgTree) (leafValues : List Rat)
    (acc : Accumulators) : List Rat :=
  (List.range t.numVertices).map (accSeqFun t leafValues acc)

/-- Modelled from the spec: `hg::accumulate_parallel` (spec §4.1): every
vertex receives the reduction of the input values of its direct children
(leaves, having no children, receive the reduction of the empty list). -/
def accumulate_parallel (t : HgTree) (input : List Rat)
    (acc : Accumulators) : List Rat :=
  (List.range t.numVertices).map
    (fun v => reduceChildren acc ((t.children v).map (fun c => input.getD c 0)))

/-- One update of the combined sequential pass: the child reduction is
combined with the per-node extra input through `f` before being stored. -/
def accCombStep (t : HgTree) (input : List Rat) (acc : Accumulators)
    (f : Rat → Rat → Rat) (out : Nat → Rat) (v : Nat) : Nat → Rat :=
  fun x => if x = v then
    f (reduceChildren acc ((t.children v).map out)) (input.getD v 0)
  else out x

/-- Modelled from the spec: `hg::accumulate_and_combine_sequential`
(spec §4.1): as the sequential accumulation, but the child reduction of an
internal vertex is combined with that vertex's entry of the per-node input
array through the combining functor before being stored. -/
def accumulate_and_combine_sequential (t : HgTree) (input : List Rat)
    (leafValues : List Rat) (acc : Accumulators) (f : Rat → Rat → Rat) :
    List Rat :=
  (List.range t.numVertices).map
    ((List.range' t.numLeaves (t.numVertices - t.numLeaves)).foldl
      (accCombStep t input acc f)
      (fun v => if v < t.numLeaves then leafValues.getD v 0 else 0))

/-- Modelled from the spec: `hg::propagate_parallel` without a condition
(spec §4.1): every vertex receives the input value of its parent (for the
root, which is its own parent, this is its own input value). -/
def propagate_parallel (t : HgTree) (input : List Rat) : List Rat :=
  (List.range t.numVertices).map (fun v => input.getD (t.parent v) 0)

/-- Modelled from the spec: `hg::propagate_parallel` with a condition
(spec §4.1): a vertex receives its parent's input value when its condition
holds and keeps its own input value otherwise. -/
def propagate_parallel_cond (t : HgTree) (input : List Rat)
    (condition : List Bool) : List Rat :=
  (List.range t.numVertices).map
    (fun v => if condition.getD v false then input.getD (t.parent v) 0
      else input.getD v 0)

/-- A boolean nd-array (the pybind default argument is the empty
0-dimensional array). -/
structure NDArrayB where
  shape : List Nat
  data : List Bool
deriving Repr

/-- The `_propagate_parallel` binding (py_tree_accumulators.cpp lines
220-239): when the condition array is 0-dimensional (the default argument)
the unconditional overload is called, otherwise the conditional one. -/
def py_propagate_parallel (t : HgTree) (input : List Rat)
    (condition : NDArrayB) : List Rat :=
  if condition.shape.length = 0 then propagate_parallel t input
  else propagate_parallel_cond t input condition.data

/-! ## The accumulator dispatch of the python bindings

The bindings receive the runtime value of the `hg::accumulators` enum
(declaration order min, max, mean, counter, sum, prod, first, last =
0..7) and switch over it, throwing `Unknown accumulator.` past the listed
cases. -/

/-- The runtime (underlying integer) value of an `hg::accumulators`
member. -/
def accCode : Accumulators → Nat
  | .min => 0
  | .max => 1
  | .mean => 2
  | .counter => 3
  | .sum => 4
  | .prod => 5
  | .first => 6
  | .last => 7

/-- The `_accumulate_parallel` binding (py_tree_accumulators.cpp lines
28-68): switch over the accumulator selector. -/
def py_accumulate_parallel (t : HgTree) (input : List Rat) (acc : Nat) :
    Except String (List Rat) :=
  match acc with
  | 0 => .ok (accumulate_parallel t input .min)
  | 1 => .ok (accumulate_parallel t input .max)
  | 2 => .ok (accumulate_parallel t input .mean)
  | 3 => .ok (accumulate_parallel t input .counter)
  | 4 => .ok (accumulate_parallel t input .sum)
  | 5 => .ok (accumulate_parallel t input .prod)
  | 6 => .ok (accumulate_parallel t input .first)
  | 7 => .ok (accumulate_parallel t input .last)
  | _ => .error "Unknown accumulator."

/-- The `_accumulate_sequential` binding (py_tree_accumulators.cpp lines
70-110): switch over the accumulator selector. -/
def py_accumulate_sequential (t : HgTree) (leafData : List Rat) (acc : Nat) :
    Except String (List Rat) :=
  match acc with
  | 0 => .ok (accumulate_sequential t leafData .min)
  | 1 => .ok (accumulate_sequential t leafData .max)
  | 2 => .ok (accumulate_sequential t leafData .mean)
  | 3 => .ok (accumulate_sequential t leafData .counter)
  | 4 => .ok (accumulate_sequential t leafData .sum)
  | 5 => .ok (accumulate_sequential t leafData .prod)
  | 6 => .ok (accumulate_sequential t leafData .first)
  | 7 => .ok (accumulate_sequential t leafData .last)
  | _ => .error "Unknown accumulator."

/-- The `_accumulate_and_*_sequential` bindings (py_tree_accumulators.cpp
lines 142-200, instantiated with the add/multiply/max/min functors):
switch over the accumulator selector. -/
def py_accumulate_and_combine_sequential (t : HgTree) (input : List Rat)
    (leafData : List Rat) (acc : Nat) (f : Rat → Rat → Rat) :
    Except String (List Rat) :=
  match acc with
  | 0 => .ok (accumulate_and_combine_sequential t input leafData .min f)
  | 1 => .ok (accumulate_and_combine_sequential t input leafData .max f)
  | 2 => .ok (accumulate_and_combine_sequential t input leafData .mean f)
  | 3 => .ok (accumulate_and_combine_sequential t input leafData .counter f)
  | 4 => .ok (accumulate_and_combine_sequential t input leafData .sum f)
  | 5 => .ok (accumulate_and_combine_sequential t input leafData .prod f)
  | 6 => .ok (accumulate_and_combine_sequential t input leafData .first f)
  | 7 => .ok (accumulate_and_combine_sequential t input leafData .last f)
  | _ => .error "Unknown accumulator."

/-! ## LCA queries -/

/-- Modelled from the spec: the query of the LCA structure
(`higra/structure/lca_fast.hpp` is not among the given sources; spec §4.2:
`lca(v1, v2)` returns the deepest vertex that is an ancestor of both,
ancestors including the vertex itself).  Under the topological numbering
(children precede parents) this is the first common vertex of the two
parent chains, computed by repeatedly replacing the smaller of the two
current vertices by its parent; `2 * numVertices` fuel bounds the climb on
a valid tree, with a symmetric fallback on exhaustion (unreachable on
valid inputs). -/
def lcaAux (parent : Nat → Nat) : Nat → Nat → Nat → Nat
  | 0, a, b => max a b
  | fuel + 1, a, b =>
      if a = b then a
      else if a < b then lcaAux parent fuel (parent a) b
      else lcaAux parent fuel a (parent b)

def HgTree.lca (t : HgTree) (a b : Nat) : Nat :=
  lcaAux t.parent (2 * t.numVertices) a b

/-! ## Propagation -/

theorem getD_map_range {α : Type} (f : Nat → α) (d : α) (n a : Nat)
    (ha : a < n) : ((List.range n).map f).getD a d = f a := by
  rw [List.getD_eq_getElem?_getD, List.getElem?_eq_getElem (by simpa using ha)]
  simp

/-- **C9.** For every valid tree and every node-value array of length
`num_vertices`, `_propagate_parallel` called with the default (empty,
0-dimensional) condition array takes the unconditional path — the gate is
always true — and sets the output of every non-root vertex `v` to
`node_values[parent(v)]` (a one-level copy from the direct parent). -/
theorem propagate_parallel_default_condition (t : HgTree) (hval : t.Valid)
    (input : List Rat) (hlen : input.length = t.numVertices)
    (v : Nat) (hv : v < t.numVertices) (hnr : v ≠ t.root) :
    (py_propagate_parallel t input ⟨[], []⟩).getD v 0 =
      input.getD (t.parent v) 0 := by
  show (propagate_parallel t input).getD v 0 = _
  unfold propagate_parallel
  rw [getD_map_range _ _ _ v hv]

theorem propagate_parallel_default_condition_witness :
    treeC2.Valid ∧
      ([1, 2, 3, 4, 5, 6, 7] : List Rat).length = treeC2.numVertices ∧
      2 < treeC2.numVertices ∧ 2 ≠ treeC2.root ∧
      (py_propagate_parallel treeC2 [1, 2, 3, 4, 5, 6, 7] ⟨[], []⟩).getD 2 0 =
        ([1, 2, 3, 4, 5, 6, 7] : List Rat).getD (treeC2.parent 2) 0 :=
  ⟨by decide, by decide, by decide, by decide,
    propagate_parallel_default_condition treeC2 (by decide) [1, 2, 3, 4, 5, 6, 7]
      (by decide) 2 (by decide) (by decide)⟩

/-! ## LCA properties -/

theorem lcaAux_zero (parent : Nat → Nat) (a b : Nat) :
    lcaAux parent 0 a b = max a b := rfl

theorem lcaAux_succ (parent : Nat → Nat) (fuel a b : Nat) :
    lcaAux parent (fuel + 1) a b =
      if a = b then a
      else if a < b then lcaAux parent fuel (parent a) b
      else lcaAux parent fuel a (parent b) := rfl

theorem lcaAux_comm (parent : Nat → Nat) :
    ∀ fuel a b, lcaAux parent fuel a b = lcaAux parent fuel b a := by
  intro fuel
  induction fuel with
  | zero =>
      intro a b
      rw [lcaAux_zero, lcaAux_zero]
      exact Nat.max_comm a b
  | succ fuel ih =>
      intro a b
      rw [lcaAux_succ, lcaAux_succ]
      by_cases hab : a = b
      · rw [if_pos hab, if_pos hab.symm, hab]
      · rcases Nat.lt_trichotomy a b with h | h | h
        · rw [if_neg hab, if_pos h, if_neg (Ne.symm hab),
            if_neg (by omega : ¬ b < a)]
          exact ih (parent a) b
        · exact absurd h hab
        · rw [if_neg hab, if_neg (by omega : ¬ a < b), if_neg (Ne.symm hab),
            if_pos h]
          exact ih a (parent b)

theorem lcaAux_climb (parent : Nat → Nat) (r : Nat)
    (hp : ∀ v, v < r → v < parent v ∧ parent v ≤ r) :
    ∀ fuel v, v ≤ r → r - v < fuel → lcaAux parent fuel v r = r := by
  intro fuel
  induction fuel with
  | zero =>
      intro v h1 h2
      omega
  | succ fuel ih =>
      intro v h1 h2
      rw [lcaAux_succ]
      by_cases hv : v = r
      · rw [if_pos hv]
        exact hv
      · have hvr : v < r := by omega
        obtain ⟨ha, hb⟩ := hp v hvr
        rw [if_neg hv, if_pos hvr]
        exact ih (parent v) hb (by omega)

/-- **C3.** For the LCA query structure built from any valid tree:
`lca(v, v) = v` for every vertex `v`, `lca(v, root) = root` for every
vertex `v`, and `lca(a, b) = lca(b, a)` for every pair of vertices. -/
theorem lca_properties (t : HgTree) (hval : t.Valid) (v a b : Nat)
    (hv : v < t.numVertices) :
    t.lca v v = v ∧ t.lca v t.root = t.root ∧ t.lca a b = t.lca b a := by
  obtain ⟨hpos, hnl, hroot, hup⟩ := hval
  refine ⟨?_, ?_, ?_⟩
  · unfold HgTree.lca
    cases hfu : 2 * t.numVertices with
    | zero => rw [lcaAux_zero]; exact Nat.max_self v
    | succ fuel => rw [lcaAux_succ, if_pos rfl]
  · unfold HgTree.lca
    have hr : t.root = t.numVertices - 1 := rfl
    refine lcaAux_climb t.parent t.root ?_ (2 * t.numVertices) v (by omega)
      (by omega)
    intro u hu
    obtain ⟨h1, h2, _⟩ := hup u hu
    exact ⟨h1, by omega⟩
  · exact lcaAux_comm t.parent (2 * t.numVertices) a b

theorem lca_properties_witness :
    treeC2.Valid ∧ 2 < treeC2.numVertices ∧
      (treeC2.lca 2 2 = 2 ∧ treeC2.lca 2 treeC2.root = treeC2.root ∧
        treeC2.lca 1 5 = treeC2.lca 5 1) :=
  ⟨by decide, by decide, lca_properties treeC2 (by decide) 2 1 5 (by decide)⟩

/-! ## Accumulator dispatch -/

/-- **C8.** For every accumulation entry point (parallel, sequential, and
accumulate-and-combine), passing a reducer selector that is not one of the
eight enum members fails with the invalid-argument error
`Unknown accumulator.`, and each of the eight members dispatches to the
corresponding reduction strategy. -/
theorem accumulator_dispatch (t : HgTree) (input vdata : List Rat)
    (f : Rat → Rat → Rat) (code : Nat) :
    (∀ a : Accumulators,
      py_accumulate_parallel t input (accCode a) =
        .ok (accumulate_parallel t input a) ∧
      py_accumulate_sequential t input (accCode a) =
        .ok (accumulate_sequential t input a) ∧
      py_accumulate_and_combine_sequential t vdata input (accCode a) f =
        .ok (accumulate_and_combine_sequential t vdata input a f)) ∧
    (8 ≤ code →
      py_accumulate_parallel t input code = .error "Unknown accumulator." ∧
      py_accumulate_sequential t input code = .error "Unknown accumulator." ∧
      py_accumulate_and_combine_sequential t vdata input code f =
        .error "Unknown accumulator.") := by
  constructor
  · intro a
    cases a <;> exact ⟨rfl, rfl, rfl⟩
  · intro hc
    obtain ⟨k, rfl⟩ : ∃ k, code = k + 8 := ⟨code - 8, by omega⟩
    exact ⟨rfl, rfl, rfl⟩

theorem accumulator_dispatch_witness :
    8 ≤ 9 ∧
    ((∀ a : Accumulators,
      py_accumulate_parallel treeC2 [1, 2, 3, 4, 5, 6, 7] (accCode a) =
        .ok (accumulate_parallel treeC2 [1, 2, 3, 4, 5, 6, 7] a) ∧
      py_accumulate_sequential treeC2 [1, 2, 3, 4, 5, 6, 7] (accCode a) =
        .ok (accumulate_sequential treeC2 [1, 2, 3, 4, 5, 6, 7] a) ∧
      py_accumulate_and_combine_sequential treeC2 [7, 6, 5, 4, 3, 2, 1]
          [1, 2, 3, 4, 5, 6, 7] (accCode a) (· + ·) =
        .ok (accumulate_and_combine_sequential treeC2 [7, 6, 5, 4, 3, 2, 1]
          [1, 2, 3, 4, 5, 6, 7] a (· + ·))) ∧
    (8 ≤ 9 →
      py_accumulate_parallel treeC2 [1, 2, 3, 4, 5, 6, 7] 9 =
        .error "Unknown accumulator." ∧
      py_accumulate_sequential treeC2 [1, 2, 3, 4, 5, 6, 7] 9 =
        .error "Unknown accumulator." ∧
      py_accumulate_and_combine_sequential treeC2 [7, 6, 5, 4, 3, 2, 1]
          [1, 2, 3, 4, 5, 6, 7] 9 (· + ·) =
        .error "Unknown accumulator.")) :=
  ⟨by omega,
    accumulator_dispatch treeC2 [1, 2, 3, 4, 5, 6, 7] [7, 6, 5, 4, 3, 2, 1]
      (· + ·) 9⟩

/-! ## Sequential accumulation: characterisation -/

theorem children_lt (t : HgTree) (v c : Nat) (hc : c ∈ t.children v) :
    c < v := by
  unfold HgTree.children at hc
  rw [List.mem_filter] at hc
  exact List.mem_range.1 hc.1

theorem children_nodup (t : HgTree) (v : Nat) : (t.children v).Nodup :=
  (List.nodup_range v).filter _

theorem mem_children (t : HgTree) (v c : Nat) :
    c ∈ t.children v ↔ c < v ∧ t.parent c = v := by
  unfold HgTree.children
  rw [List.mem_filter, List.mem_range]
  simp

theorem accStep_foldl_frame (t : HgTree) (acc : Accumulators) :
    ∀ (vs : List Nat) (out0 : Nat → Rat) (x : Nat), x ∉ vs →
      vs.foldl (accStep t acc) out0 x = out0 x := by
  intro vs
  induction vs with
  | nil =>
      intro out0 x _
      rfl
  | cons v rest ih =>
      intro out0 x hx
      rw [List.foldl_cons]
      have hxv : x ≠ v := fun h => hx (h ▸ List.mem_cons_self v rest)
      have hxr : x ∉ rest := fun h => hx (List.mem_cons_of_mem v h)
      rw [ih (accStep t acc out0 v) x hxr]
      unfold accStep
      rw [if_neg hxv]

theorem accStep_self (t : HgTree) (acc : Accumulators) (out : Nat → Rat)
    (v : Nat) :
    accStep t acc out v v = reduceChildren acc ((t.children v).map out) := by
  unfold accStep
  rw [if_pos rfl]

theorem accStep_other (t : HgTree) (acc : Accumulators) (out : Nat → Rat)
    (v x : Nat) (h : x ≠ v) : accStep t acc out v x = out x := by
  unfold accStep
  rw [if_neg h]

/-- After a sequential pass over a strictly increasing list of vertices,
every processed vertex holds the reduction of the final values of its
children (children precede their parents, so their values are final when
the parent is processed and are never overwritten afterwards). -/
theorem accStep_foldl_fix (t : HgTree) (acc : Accumulators) :
    ∀ (vs : List Nat) (out0 : Nat → Rat), vs.Pairwise (· < ·) →
      ∀ v ∈ vs, vs.foldl (accStep t acc) out0 v =
        reduceChildren acc
          ((t.children v).map (vs.foldl (accStep t acc) out0)) := by
  intro vs
  induction vs with
  | nil =>
      intro out0 _ v hv
      exact absurd hv (List.not_mem_nil v)
  | cons w rest ih =>
      intro out0 hpw v hv
      have hhead : ∀ r ∈ rest, w < r := (List.pairwise_cons.1 hpw).1
      rw [List.foldl_cons]
      rcases List.mem_cons.1 hv with hv' | hv'
      · subst hv'
        have hwnotr : v ∉ rest := fun h => absurd (hhead v h) (lt_irrefl v)
        rw [accStep_foldl_frame t acc rest _ v hwnotr, accStep_self]
        congr 1
        apply List.map_congr_left
        intro c hc
        have hclt : c < v := children_lt t v c hc
        have hcr : c ∉ rest := by
          intro h
          have := hhead c h
          omega
        rw [accStep_foldl_frame t acc rest _ c hcr,
          accStep_other t acc out0 v c (by omega)]
      · exact ih (accStep t acc out0 w) (List.Pairwise.of_cons hpw) v hv'

theorem accumulate_sequential_getD (t : HgTree) (L : List Rat)
    (acc : Accumulators) (v : Nat) (hv : v < t.numVertices) :
    (accumulate_sequential t L acc).getD v 0 = accSeqFun t L acc v := by
  unfold accumulate_sequential
  exact getD_map_range _ _ _ v hv

theorem accSeqFun_leaf (t : HgTree) (L : List Rat) (acc : Accumulators)
    (v : Nat) (hv : v < t.numLeaves) :
    accSeqFun t L acc v = L.getD v 0 := by
  unfold accSeqFun
  have hnot : v ∉ List.range' t.numLeaves (t.numVertices - t.numLeaves) := by
    intro hmem
    rw [List.mem_range'_1] at hmem
    omega
  rw [accStep_foldl_frame t acc _ _ v hnot]
  show (if v < t.numLeaves then L.getD v 0 else 0) = L.getD v 0
  rw [if_pos hv]

theorem accSeqFun_fix (t : HgTree) (L : List Rat) (acc : Accumulators)
    (v : Nat) (hvl : t.numLeaves ≤ v) (hvn : v < t.numVertices) :
    accSeqFun t L acc v =
      reduceChildren acc ((t.children v).map (accSeqFun t L acc)) := by
  unfold accSeqFun
  refine accStep_foldl_fix t acc _ _ (List.pairwise_lt_range' _ _) v ?_
  rw [List.mem_range'_1]
  omega

/-! ## Sequential accumulation with `sum`: conservation -/

/-- The children of `v` as a finite set. -/
def childSet (t : HgTree) (v : Nat) : Finset Nat := (t.children v).toFinset

theorem mem_childSet (t : HgTree) (v c : Nat) :
    c ∈ childSet t v ↔ c < v ∧ t.parent c = v := by
  unfold childSet
  rw [List.mem_toFinset, mem_children]

theorem children_sum_eq (t : HgTree) (v : Nat) (f : Nat → Rat) :
    reduceChildren .sum ((t.children v).map f) = ∑ c in childSet t v, f c := by
  show ((t.children v).map f).foldl (· + ·) 0 = _
  rw [← List.sum_eq_foldl]
  unfold childSet
  rw [List.sum_toFinset f (children_nodup t v)]

/-- The frontier after the vertices `num_leaves .. v - 1` have been
processed: the computed vertices whose value has not yet been absorbed into
their parent. -/
def front (t : HgTree) (v : Nat) : Finset Nat :=
  (Finset.range t.numVertices).filter
    (fun u => v ≤ t.parent u ∧ (u < t.numLeaves ∨ u < v))

theorem mem_front (t : HgTree) (v u : Nat) :
    u ∈ front t v ↔
      u < t.numVertices ∧ v ≤ t.parent u ∧ (u < t.numLeaves ∨ u < v) := by
  unfold front
  rw [Finset.mem_filter, Finset.mem_range]

/-- The partial sequential pass, the vertices `num_leaves .. v - 1`
processed. -/
def accSeqAt (t : HgTree) (L : List Rat) (acc : Accumulators) (v : Nat) :
    Nat → Rat :=
  (List.range' t.numLeaves (v - t.numLeaves)).foldl (accStep t acc)
    (fun x => if x < t.numLeaves then L.getD x 0 else 0)

theorem accSeqAt_succ (t : HgTree) (L : List Rat) (acc : Accumulators)
    (v : Nat) (hv : t.numLeaves ≤ v) :
    accSeqAt t L acc (v + 1) = accStep t acc (accSeqAt t L acc v) v := by
  unfold accSeqAt
  rw [show v + 1 - t.numLeaves = (v - t.numLeaves) + 1 from by omega,
    List.range'_1_concat, List.foldl_append, List.foldl_cons, List.foldl_nil,
    show t.numLeaves + (v - t.numLeaves) = v from by omega]

/-- Conservation invariant of the sequential `sum` pass: at every stage the
frontier values add up to the total of the leaf values. -/
theorem accSeq_sum_invariant (t : HgTree) (hval : t.Valid) (L : List Rat) :
    ∀ v, t.numLeaves ≤ v → v ≤ t.root →
      ∑ u in front t v, accSeqAt t L .sum v u =
        ∑ l in Finset.range t.numLeaves, L.getD l 0 := by
  obtain ⟨hpos, hle, hroot, hup⟩ := hval
  have hr : t.root = t.numVertices - 1 := rfl
  intro v hnlv
  induction v, hnlv using Nat.le_induction with
  | base =>
      intro hvr
      have hfr : front t t.numLeaves = Finset.range t.numLeaves := by
        ext u
        rw [mem_front, Finset.mem_range]
        constructor
        · rintro ⟨_, _, h | h⟩
          · exact h
          · exact h
        · intro hu
          have hur : u < t.root := by omega
          obtain ⟨_, _, h3⟩ := hup u hur
          exact ⟨by omega, by omega, Or.inl hu⟩
      rw [hfr]
      refine Finset.sum_congr rfl ?_
      intro u hu
      have hu' : u < t.numLeaves := Finset.mem_range.1 hu
      show accSeqAt t L .sum t.numLeaves u = _
      unfold accSeqAt
      rw [show t.numLeaves - t.numLeaves = 0 from by omega]
      show (if u < t.numLeaves then L.getD u 0 else 0) = L.getD u 0
      rw [if_pos hu']
  | succ v hnlv ih =>
      intro hvr
      have hv' : v < t.root := by omega
      obtain ⟨hp1, hp2, hp3⟩ := hup v hv'
      have hvn : v < t.numVertices := by omega
      -- the frontier after processing v
      have hins : front t (v + 1) = insert v (front t v \ childSet t v) := by
        ext u
        rw [Finset.mem_insert, Finset.mem_sdiff, mem_front, mem_front,
          mem_childSet]
        by_cases huv : u = v
        · subst huv
          constructor
          · intro _
            exact Or.inl rfl
          · intro _
            exact ⟨by omega, by omega, Or.inr (by omega)⟩
        · constructor
          · rintro ⟨h1, h2, h3⟩
            refine Or.inr ⟨⟨h1, by omega, by omega⟩, ?_⟩
            rintro ⟨_, hpu⟩
            omega
          · rintro (h | ⟨⟨h1, h2, h3⟩, h4⟩)
            · exact absurd h huv
            · refine ⟨h1, ?_, by omega⟩
              by_cases hpu : t.parent u = v
              · exfalso
                have hunl : ¬ u < v := fun hh => h4 ⟨hh, hpu⟩
                by_cases hur : u < t.root
                · have := hup u hur
                  omega
                · have hueq : u = t.root := by omega
                  rw [hueq, hroot] at hpu
                  omega
              · omega
      have hsub : childSet t v ⊆ front t v := by
        intro c hc
        rw [mem_childSet] at hc
        rw [mem_front]
        exact ⟨by omega, by omega, Or.inr hc.1⟩
      have hvnot : v ∉ front t v := by
        intro hmem
        rw [mem_front] at hmem
        omega
      have hvnot2 : v ∉ front t v \ childSet t v := by
        intro hmem
        exact hvnot (Finset.mem_sdiff.1 hmem).1
      calc ∑ u in front t (v + 1), accSeqAt t L .sum (v + 1) u
          = ∑ u in insert v (front t v \ childSet t v),
              accStep t .sum (accSeqAt t L .sum v) v u := by
            rw [hins, accSeqAt_succ t L .sum v hnlv]
        _ = accStep t .sum (accSeqAt t L .sum v) v v +
            ∑ u in front t v \ childSet t v,
              accStep t .sum (accSeqAt t L .sum v) v u :=
            Finset.sum_insert hvnot2
        _ = (∑ c in childSet t v, accSeqAt t L .sum v c) +
            ∑ u in front t v \ childSet t v, accSeqAt t L .sum v u := by
            congr 1
            · rw [accStep_self, children_sum_eq]
            · refine Finset.sum_congr rfl ?_
              intro u hu
              rw [Finset.mem_sdiff] at hu
              have huv : u ≠ v := by
                intro h
                rw [h] at hu
                exact hvnot hu.1
              rw [accStep_other t .sum _ v u huv]
        _ = ∑ u in front t v, accSeqAt t L .sum v u := by
            rw [add_comm]
            exact Finset.sum_sdiff hsub
        _ = ∑ l in Finset.range t.numLeaves, L.getD l 0 := ih (by omega)

theorem sum_range_getD (L : List Rat) :
    ∑ l in Finset.range L.length, L.getD l 0 = L.sum := by
  induction L with
  | nil => simp
  | cons a xs ih =>
      rw [List.length_cons, Finset.sum_range_succ']
      simp only [List.getD_cons_succ, List.getD_cons_zero]
      rw [ih, List.sum_cons, add_comm]

/-- **C2.** For every valid tree `T` and every leaf-value array `L` of
length `num_leaves`, `accumulate_sequential(T, L, sum)` copies `L` at the
leaf positions and stores at each internal vertex the sum of the
already-computed outputs of its children; in particular its value at the
root equals the sum of all leaf values.  On the concrete binary tree with
4 leaves, internal nodes 4 (parent of 0,1), 5 (parent of 2,3), root 6
(parent of 4,5), and leaf values [1,2,3,4], the result is
[1,2,3,4,3,7,10]. -/
theorem accumulate_sequential_sum_spec (t : HgTree) (hval : t.Valid)
    (L : List Rat) (hL : L.length = t.numLeaves) :
    (∀ v, v < t.numLeaves →
      (accumulate_sequential t L .sum).getD v 0 = L.getD v 0) ∧
    (∀ v, t.numLeaves ≤ v → v < t.numVertices →
      (accumulate_sequential t L .sum).getD v 0 =
        ((t.children v).map
          (fun c => (accumulate_sequential t L .sum).getD c 0)).sum) ∧
    (accumulate_sequential t L .sum).getD t.root 0 = L.sum ∧
    accumulate_sequential treeC2 [1, 2, 3, 4] .sum =
      [1, 2, 3, 4, 3, 7, 10] := by
  obtain ⟨hpos, hle, hroot, hup⟩ := hval
  have hr : t.root = t.numVertices - 1 := rfl
  have hvalid : t.Valid := ⟨hpos, hle, hroot, hup⟩
  refine ⟨?_, ?_, ?_, ?_⟩
  case refine_4 =>
    simp +decide [accumulate_sequential, accSeqFun, accStep, reduceChildren,
      treeC2, HgTree.children, HgTree.numVertices, HgTree.numLeaves,
      HgTree.parent, List.range', List.range, List.range.loop]
    norm_num
  · intro v hv
    rw [accumulate_sequential_getD t L .sum v (by omega),
      accSeqFun_leaf t L .sum v hv]
  · intro v hvl hvn
    rw [accumulate_sequential_getD t L .sum v hvn,
      accSeqFun_fix t L .sum v hvl hvn]
    show ((t.children v).map (accSeqFun t L .sum)).foldl (· + ·) 0 = _
    rw [← List.sum_eq_foldl]
    congr 1
    apply List.map_congr_left
    intro c hc
    have hclt : c < v := children_lt t v c hc
    rw [accumulate_sequential_getD t L .sum c (by omega)]
  · by_cases hnl : t.numLeaves ≤ t.root
    · rw [accumulate_sequential_getD t L .sum t.root (by omega)]
      have hfin : accSeqFun t L .sum =
          accStep t .sum (accSeqAt t L .sum t.root) t.root := by
        show accSeqAt t L .sum t.numVertices = _
        rw [show t.numVertices = t.root + 1 from by omega]
        exact accSeqAt_succ t L .sum t.root hnl
      have hfr : front t t.root = childSet t t.root := by
        ext u
        rw [mem_front, mem_childSet]
        constructor
        · rintro ⟨h1, h2, h3⟩
          have hult : u < t.root := by omega
          have := hup u hult
          exact ⟨hult, by omega⟩
        · rintro ⟨h1, h2⟩
          exact ⟨by omega, by omega, Or.inr h1⟩
      rw [hfin, accStep_self, children_sum_eq, ← hfr,
        accSeq_sum_invariant t hvalid L t.root hnl (le_refl _), ← hL,
        sum_range_getD]
    · have hone : t.numVertices = 1 ∧ t.numLeaves = 1 := by
        by_cases h2 : 2 ≤ t.numVertices
        · exfalso
          have h0 : (0 : Nat) < t.root := by omega
          have := hup 0 h0
          omega
        · omega
      obtain ⟨hn1, hnl1⟩ := hone
      rw [accumulate_sequential_getD t L .sum t.root (by omega),
        accSeqFun_leaf t L .sum t.root (by omega)]
      obtain ⟨x, rfl⟩ : ∃ x, L = [x] := by
        cases L with
        | nil =>
            exfalso
            rw [List.length_nil] at hL
            omega
        | cons a l =>
            cases l with
            | nil => exact ⟨a, rfl⟩
            | cons b m =>
                exfalso
                simp at hL
                omega
      have hr0 : t.root = 0 := by omega
      rw [hr0]
      simp

theorem accumulate_sequential_sum_spec_witness :
    treeC2.Valid ∧ ([1, 2, 3, 4] : List Rat).length = treeC2.numLeaves ∧
    ((∀ v, v < treeC2.numLeaves →
      (accumulate_sequential treeC2 [1, 2, 3, 4] .sum).getD v 0 =
        ([1, 2, 3, 4] : List Rat).getD v 0) ∧
     (∀ v, treeC2.numLeaves ≤ v → v < treeC2.numVertices →
      (accumulate_sequential treeC2 [1, 2, 3, 4] .sum).getD v 0 =
        ((treeC2.children v).map
          (fun c =>
            (accumulate_sequential treeC2 [1, 2, 3, 4] .sum).getD c 0)).sum) ∧
     (accumulate_sequential treeC2 [1, 2, 3, 4] .sum).getD treeC2.root 0 =
       ([1, 2, 3, 4] : List Rat).sum ∧
     accumulate_sequential treeC2 [1, 2, 3, 4] .sum =
       [1, 2, 3, 4, 3, 7, 10]) :=
  ⟨by decide, by decide,
    accumulate_sequential_sum_spec treeC2 (by decide) [1, 2, 3, 4] (by decide)⟩
